import Mathlib

/-!
Verification development for the scribe-evolution firmware release toolchain.

The definitions below are a shallow embedding of the Python sources:
  - scripts/lib/config_cleaner.py   (secret scrubbing pipeline)
  - scripts/build_firmware_release.py (release packager / orchestrator)

Documents are modelled as lists of characters.  The specific regular
expressions used by the scrubber are embedded as deterministic matchers:
each of the patterns in the source is free of genuine backtracking
ambiguity (character classes never overlap the delimiters that follow
them), so each pattern has a unique match at a given position, computed
by the functions below.  Substitution and findall use Python's
left-to-right, non-overlapping scan.
-/

set_option maxHeartbeats 4000000

namespace Scribe

/-- Python regex `\s` class over ASCII text. -/
def isPySpace (c : Char) : Bool :=
  c = ' ' || c = '\t' || c = '\n' || c = '\r' || c = '\x0b' || c = '\x0c'

/-- Character class `[A-Za-z0-9+/]` (base64-ish runs). -/
def isB64Char (c : Char) : Bool := c.isAlphanum || c = '+' || c = '/'

/-- Character class `[A-Za-z0-9]`. -/
def isAlnumChar (c : Char) : Bool := c.isAlphanum

/-- Character class `[A-Za-z0-9\-_]` (JWT segments, sk- keys). -/
def isJwtChar (c : Char) : Bool := c.isAlphanum || c = '-' || c = '_'

/-- Contiguous substring test: does `pat` occur inside `s`. -/
def containsSub : List Char → List Char → Bool
  | s, pat =>
    match s with
    | [] => pat.isEmpty
    | _ :: t => pat.isPrefixOf s || containsSub t pat

/-- Match a double-quoted segment `"[^"]*"` at the head of the input.
Returns the contents (without the quotes) and the rest after the closing
quote. -/
def mQuoted : List Char → Option (List Char × List Char)
  | [] => none
  | c :: t =>
    if c = '"' then
      match (t.span (fun x => x ≠ '"')).2 with
      | c2 :: r => if c2 = '"' then some ((t.span (fun x => x ≠ '"')).1, r) else none
      | [] => none
    else none

/-- Greedy match of `(?:\s*"[^"]*")*` (adjacent quoted string segments):
returns the consumed text and the rest. -/
def mContGo : Nat → List Char → (List Char × List Char)
  | 0, cs => ([], cs)
  | fuel + 1, cs =>
    match mQuoted (cs.span isPySpace).2 with
    | some (content, rest) =>
      ((cs.span isPySpace).1 ++ '"' :: content ++ '"' :: (mContGo fuel rest).1,
        (mContGo fuel rest).2)
    | none => ([], cs)

/-- Greedy match of `(?:\s*"[^"]*")*` with enough fuel for any input. -/
def mCont (cs : List Char) : List Char × List Char := mContGo cs.length cs

/-- Match `NAME\s*=\s*` at the head (the capture group `\1` of every
secret pattern): returns the matched text and the rest. -/
def mAnchor (name : List Char) (cs : List Char) : Option (List Char × List Char) :=
  if name.isPrefixOf cs then
    match ((cs.drop name.length).span isPySpace).2 with
    | c :: t2 =>
      if c = '=' then
        some (name ++ ((cs.drop name.length).span isPySpace).1 ++ '=' :: (t2.span isPySpace).1,
          (t2.span isPySpace).2)
      else none
    | [] => none
  else none

/-- The shapes of the value parts of the nine secret patterns in
`get_secret_patterns` (config_cleaner.py). -/
inductive ValueKind
  | generic
  | cloudServer
  | ownerNotYour
  | skOrBase64
  | alnum15
  | bsEndpointUrl
deriving DecidableEq

/-- Whether the contents of the first quoted segment after the anchor
satisfy the value part of the pattern.  The contents run from the opening
quote to the next quote, so each regex value is equivalent to a condition
on that contents string. -/
def valueContentOk : ValueKind → List Char → Bool
  | .generic, _ => true
  | .cloudServer, c =>
      ".hivemq.cloud".data.isSuffixOf c || ".amazonaws.com".data.isSuffixOf c ||
        ".azure.com".data.isSuffixOf c
  | .ownerNotYour, c => !("YOUR_".data.isPrefixOf c)
  | .skOrBase64, c => "sk-".data.isPrefixOf c || (decide (20 ≤ c.length) && c.all isB64Char)
  | .alnum15, c => decide (15 ≤ c.length) && c.all isAlnumChar
  | .bsEndpointUrl, c =>
      "https://".data.isPrefixOf c && containsSub (c.drop 8) "betterstackdata.com".data

/-- One replacement rule of `get_secret_patterns`: a field-name anchor, a
value shape, and the placeholder written between quotes by `\1"..."`. -/
structure SecretRule where
  fieldName : List Char
  kind : ValueKind
  placeholder : List Char
deriving DecidableEq

/-- The nine secret detection/replacement patterns of
`get_secret_patterns`, in source order. -/
def get_secret_patterns : List SecretRule :=
  [ ⟨"defaultWifiSSID".data, .generic, "YOUR_WIFI_SSID".data⟩,
    ⟨"defaultWifiPassword".data, .generic, "YOUR_WIFI_PASSWORD".data⟩,
    ⟨"defaultMqttServer".data, .cloudServer, "YOUR_MQTT_SERVER.hivemq.cloud".data⟩,
    ⟨"defaultMqttUsername".data, .generic, "YOUR_MQTT_USERNAME".data⟩,
    ⟨"defaultMqttPassword".data, .generic, "YOUR_MQTT_PASSWORD".data⟩,
    ⟨"defaultDeviceOwner".data, .ownerNotYour, "YOUR_DEVICE_NAME".data⟩,
    ⟨"defaultChatgptApiToken".data, .skOrBase64, "YOUR_OPENAI_API_KEY".data⟩,
    ⟨"betterStackToken".data, .alnum15, "YOUR_BETTERSTACK_TOKEN".data⟩,
    ⟨"betterStackEndpoint".data, .bsEndpointUrl, "YOUR_BETTERSTACK_ENDPOINT".data⟩ ]

/-- Try to match the full pattern `(NAME\s*=\s*)VALUE(?:\s*"[^"]*")*` of a
rule at the head of the input; on success return the replacement text
(the captured anchor followed by the quoted placeholder) and the rest of
the input after the whole match. -/
def matchRuleAt (r : SecretRule) (cs : List Char) : Option (List Char × List Char) :=
  match mAnchor r.fieldName cs with
  | none => none
  | some (atext, rest1) =>
    match mQuoted rest1 with
    | none => none
    | some (content, rest2) =>
      if valueContentOk r.kind content then
        let k := mCont rest2
        some (atext ++ '"' :: r.placeholder ++ ['"'], k.2)
      else none

/-- Left-to-right non-overlapping substitution scan (Python `re.sub`),
with explicit fuel (every match consumes at least one character, so fuel
equal to the length of the input always suffices). -/
def subRuleGo (r : SecretRule) : Nat → List Char → List Char
  | 0, cs => cs
  | fuel + 1, cs =>
    match matchRuleAt r cs with
    | some (repl, rest) => repl ++ subRuleGo r fuel rest
    | none =>
      match cs with
      | [] => []
      | c :: t => c :: subRuleGo r fuel t

/-- Python `re.sub(pattern, replacement, content)` for one secret rule. -/
def subRule (r : SecretRule) (cs : List Char) : List Char := subRuleGo r cs.length cs

/-- The replacement loop of `clean_secrets_from_content`: apply the nine
patterns in order. -/
def applySecretPatterns (content : List Char) : List Char :=
  get_secret_patterns.foldl (fun acc r => subRule r acc) content

/-- The six heuristic shapes of `get_suspicious_patterns`
(config_cleaner.py), used by the residual-secret scan. -/
inductive SuspKind
  | longAlnum32
  | skKey
  | longAlnum40
  | urlCreds
  | jwtLike
  | base64Data
deriving DecidableEq

/-- Source order of the suspicious patterns. -/
def get_suspicious_patterns : List SuspKind :=
  [.longAlnum32, .skKey, .longAlnum40, .urlCreds, .jwtLike, .base64Data]

/-- Deterministic match of a suspicious pattern at the head of the input:
returns the matched text (including the quotes) and the rest. -/
def sMatchAt : SuspKind → List Char → Option (List Char × List Char)
  | .longAlnum32, '"' :: t =>
    let p := t.span isB64Char
    match p.2 with
    | '"' :: r => if 32 ≤ p.1.length then some ('"' :: p.1 ++ ['"'], r) else none
    | _ => none
  | .skKey, '"' :: 's' :: 'k' :: '-' :: t =>
    let p := t.span isJwtChar
    match p.2 with
    | '"' :: r =>
      if 20 ≤ p.1.length then some ('"' :: 's' :: 'k' :: '-' :: p.1 ++ ['"'], r) else none
    | _ => none
  | .longAlnum40, '"' :: t =>
    let p := t.span isAlnumChar
    match p.2 with
    | '"' :: r => if 40 ≤ p.1.length then some ('"' :: p.1 ++ ['"'], r) else none
    | _ => none
  | .urlCreds, '"' :: t =>
    if "https://".data.isPrefixOf t then
      let t2 := t.drop 8
      let p := t2.span (fun c => c ≠ '"')
      match p.2 with
      | '"' :: r =>
        if p.1.contains '@' && (p.1.takeWhile (fun c => c ≠ '@')).contains ':' then
          some ('"' :: "https://".data ++ p.1 ++ ['"'], r)
        else none
      | _ => none
    else none
  | .jwtLike, '"' :: t =>
    let p1 := t.span isJwtChar
    match p1.2 with
    | '.' :: t2 =>
      let p2 := t2.span isJwtChar
      match p2.2 with
      | '.' :: t3 =>
        let p3 := t3.span isJwtChar
        match p3.2 with
        | '"' :: r =>
          if 20 ≤ p1.1.length && 20 ≤ p2.1.length && 20 ≤ p3.1.length then
            some ('"' :: p1.1 ++ '.' :: p2.1 ++ '.' :: p3.1 ++ ['"'], r)
          else none
        | _ => none
      | _ => none
    | _ => none
  | .base64Data, '"' :: t =>
    let p := t.span isB64Char
    if 64 ≤ p.1.length then
      let q := p.2.span (fun c => c = '=')
      if q.1.length ≤ 2 then
        match q.2 with
        | '"' :: r => some ('"' :: p.1 ++ q.1 ++ ['"'], r)
        | _ => none
      else none
    else none
  | _, _ => none

/-- Python `re.findall` scan for a suspicious pattern: left-to-right,
non-overlapping, returning the list of matched texts. -/
def findallGo (k : SuspKind) : Nat → List Char → List (List Char)
  | 0, _ => []
  | fuel + 1, cs =>
    match sMatchAt k cs with
    | some (m, rest) => m :: findallGo k fuel rest
    | none =>
      match cs with
      | [] => []
      | _ :: t => findallGo k fuel t

/-- Python `re.findall(pattern, content)` for one suspicious pattern. -/
def findall (k : SuspKind) (cs : List Char) : List (List Char) := findallGo k cs.length cs

/-- The placeholder keywords of `get_placeholder_keywords`. -/
def get_placeholder_keywords : List (List Char) :=
  ["YOUR_".data, "EXAMPLE_".data, "PLACEHOLDER_".data, "TEST_".data, "DEMO_".data]

/-- The `is_placeholder` test of `validate_no_secrets_remain`: some
placeholder keyword occurs inside the match. -/
def isPlaceholderMatch (m : List Char) : Bool :=
  get_placeholder_keywords.any (fun k => containsSub m k)

/-- The `potential_secrets` list collected by `validate_no_secrets_remain`:
all suspicious-pattern matches that do not contain a placeholder keyword,
in pattern order.  (The source stores each entry formatted with its
description; only the matches themselves decide the error condition.) -/
def potentialSecrets (content : List Char) : List (List Char) :=
  (get_suspicious_patterns.map
    (fun k => (findall k content).filter (fun m => !isPlaceholderMatch m))).flatten

/-- The function `validate_no_secrets_remain`: SystemExit 1 when any
potential secret remains. -/
def validate_no_secrets_remain (content : List Char) : Except Nat Unit :=
  if potentialSecrets content = [] then .ok () else .error 1

/-- The function `clean_secrets_from_content`: apply the nine replacement
patterns, then fail with SystemExit 1 if the residual-secret scan finds
anything, else return the rule-applied text. -/
def clean_secrets_from_content (content : List Char) : Except Nat (List Char) :=
  let cleaned := applySecretPatterns content
  match validate_no_secrets_remain cleaned with
  | .ok _ => .ok cleaned
  | .error n => .error n

instance {ε α : Type _} [DecidableEq ε] [DecidableEq α] : DecidableEq (Except ε α) := fun a b =>
  match a, b with
  | .ok x, .ok y => if h : x = y then .isTrue (by simp [h]) else .isFalse (by simp [h])
  | .error x, .error y => if h : x = y then .isTrue (by simp [h]) else .isFalse (by simp [h])
  | .ok _, .error _ => .isFalse (by simp)
  | .error _, .ok _ => .isFalse (by simp)

/-- The exact line named by the spec's password test. -/
def passwordLine : List Char := "defaultWifiPassword = \"SuperSecret123\"".data

/-- A document whose second (and last) line is exactly `passwordLine`,
but whose first line lets the WiFi-SSID rule consume the password
anchor inside one of its adjacent quoted segments. -/
def trickyDoc : List Char := "defaultWifiSSID = \"a\" \"X\n".data ++ passwordLine

/-- What the scrubber produces on `trickyDoc`. -/
def trickyDocOut : List Char := "defaultWifiSSID = \"YOUR_WIFI_SSID\"SuperSecret123\"".data

/-- The single-line document of the spec's password test. -/
def passwordDoc : List Char := passwordLine ++ ['\n']

/-- What the scrubber produces on `passwordDoc`. -/
def passwordDocOut : List Char := "defaultWifiPassword = \"YOUR_WIFI_PASSWORD\"\n".data

/-- Python `str.strip()` over the `\s` whitespace characters. -/
def pyStrip (cs : List Char) : List Char :=
  ((cs.dropWhile isPySpace).reverse.dropWhile isPySpace).reverse

/-- Split a line at commas (the behaviour of `csv.reader` on a row whose
fields contain no quoting). -/
def splitOnComma : List Char → List (List Char)
  | [] => [[]]
  | c :: t =>
    let r := splitOnComma t
    if c = ',' then [] :: r else (c :: r.headD []) :: r.tail

/-- One CSV line as `csv.reader` yields it: an empty line is the empty
row, otherwise the comma-separated fields. -/
def parseCsvLine (l : List Char) : List (List Char) :=
  if l = [] then [] else splitOnComma l

/-- Hexadecimal digit value of a character, as accepted by Python
`int(s, 16)`. -/
def charHexVal (c : Char) : Option Nat :=
  if '0' ≤ c && c ≤ '9' then some (c.toNat - 48)
  else if 'a' ≤ c && c ≤ 'f' then some (c.toNat - 87)
  else if 'A' ≤ c && c ≤ 'F' then some (c.toNat - 55)
  else none

/-- Decimal digit value of a character. -/
def charDecVal (c : Char) : Option Nat :=
  if '0' ≤ c && c ≤ '9' then some (c.toNat - 48) else none

/-- Fold a digit string into a number; none when any character is not a
digit of the base or the string is empty. -/
def parseDigitsWith (val : Char → Option Nat) (b : Nat) (cs : List Char) : Option Nat :=
  if cs = [] then none
  else
    cs.foldl
      (fun acc c =>
        match acc, val c with
        | some a, some d => some (a * b + d)
        | _, _ => none)
      (some 0)

/-- Python `int(s, 0)` restricted to the literal forms that occur in
partition tables: `0x`/`0X`-prefixed hexadecimal and plain decimal
(where a leading zero is only legal when the value is zero).  Signs,
underscores and binary/octal prefixes are not modelled; on those this
returns none, as it does on any other malformed literal (the caller maps
none to the fatal-parse exit). -/
def pyIntBase0 (cs : List Char) : Option Nat :=
  if "0x".data.isPrefixOf cs || "0X".data.isPrefixOf cs then
    parseDigitsWith charHexVal 16 (cs.drop 2)
  else if !cs.isEmpty && cs.all Char.isDigit then
    if cs.headD ' ' = '0' && !cs.all (fun c => c = '0') then none
    else parseDigitsWith charDecVal 10 cs
  else none

/-- Lower-case hexadecimal digit character. -/
def hexDigitChar (d : Nat) : Char :=
  if d < 10 then Char.ofNat (48 + d) else Char.ofNat (87 + d)

/-- Decimal digit character. -/
def decDigitChar (d : Nat) : Char := Char.ofNat (48 + d)

/-- Big-endian hexadecimal digit string of a natural number. -/
def hexDigitsBE (n : Nat) : List Char :=
  if n = 0 then ['0'] else ((Nat.digits 16 n).reverse.map hexDigitChar)

/-- Big-endian decimal digit string of a natural number (the canonical
decimal notation, as written in a partition table). -/
def decDigitsBE (n : Nat) : List Char :=
  if n = 0 then ['0'] else ((Nat.digits 10 n).reverse.map decDigitChar)

/-- Python `hex(n)` for a natural number. -/
def pyHexRepr (n : Nat) : List Char := '0' :: 'x' :: hexDigitsBE n

/-- The row loop of `_get_fs_offset_from_partitions`: skip blank and
comment rows; on a row with at least five fields whose stripped,
lower-cased name is `littlefs`, return the stripped offset as-is when it
starts with `0x`, else normalize it through `int(offset, 0)` and
`hex(...)` (a parse failure is the fatal exit); when no row matches,
fail fast with SystemExit 1. -/
def getFsOffsetRows : List (List (List Char)) → Except Nat (List Char)
  | [] => .error 1
  | row :: rest =>
    if row.isEmpty || ['#'].isPrefixOf (pyStrip (row.headD [])) then
      getFsOffsetRows rest
    else if 5 ≤ row.length then
      let name := (pyStrip (row.headD [])).map Char.toLower
      let offset := pyStrip (row.getD 3 [])
      if name = "littlefs".data then
        if "0x".data.isPrefixOf offset then .ok offset
        else
          match pyIntBase0 offset with
          | some n => .ok (pyHexRepr n)
          | none => .error 1
      else getFsOffsetRows rest
    else getFsOffsetRows rest

/-- The function `_get_fs_offset_from_partitions`, over the lines of the
partitions CSV file. -/
def getFsOffsetFromPartitions (lines : List (List Char)) : Except Nat (List Char) :=
  getFsOffsetRows (lines.map parseCsvLine)

/-- Chip type and bootloader address chosen by `create_merged_binary`
from the environment name. -/
def envChipType (environment : List Char) : List Char × List Char :=
  if "esp32c3".data.isPrefixOf environment then ("ESP32C3".data, "0x0000".data)
  else ("ESP32".data, "0x1000".data)

/-- Observable outcome of one `create_merged_binary` run. -/
structure MergeRun where
  chipAddr : Option (List Char × List Char)
  offsetRes : Option (Except Nat (List Char))
  mergeToolInvoked : Bool
  result : Except Nat Bool
deriving DecidableEq

/-- The function `create_merged_binary`: missing component files give a
warning and a false return; otherwise the chip parameters and the
filesystem offset are resolved before the merge tool runs, so a fatal
offset-resolution exit propagates (its SystemExit is no `Exception`)
and the merge tool is never invoked. -/
def create_merged_binary (environment : List Char) (filesPresent : Bool)
    (partitionLines : List (List Char)) (mergeToolOk : Bool) : MergeRun :=
  if filesPresent = false then ⟨none, none, false, .ok false⟩
  else
    let chip := envChipType environment
    match getFsOffsetFromPartitions partitionLines with
    | .error c => ⟨some chip, some (.error c), false, .error c⟩
    | .ok off => ⟨some chip, some (.ok off), true, .ok mergeToolOk⟩

/-- Name test used by the resolver claims: the stripped, lower-cased
first field equals `littlefs`. -/
def rowNamedLittlefs : List (List Char) → Bool
  | [] => false
  | f :: _ => (pyStrip f).map Char.toLower = "littlefs".data

/-- A row that the resolver's littlefs test can reach: non-blank,
non-comment, named `littlefs`. -/
def rowIsLittlefsCandidate (row : List (List Char)) : Bool :=
  !row.isEmpty && !(['#'].isPrefixOf (pyStrip (row.headD []))) && rowNamedLittlefs row

/-- A partition-table line `littlefs,data,spiffs,<n>,0x180000` whose
offset column is the canonical decimal notation of `n`. -/
def decOffsetLine (n : Nat) : List Char :=
  "littlefs,data,spiffs,".data ++ decDigitsBE n ++ ",0x180000".data

/-- The eight placeholder patterns counted by `is_config_already_clean`
(each is a literal regex, so `re.search` is substring containment; note
the MQTT-server pattern has no closing quote). -/
def placeholderPatterns : List (List Char) :=
  [ "\"YOUR_WIFI_SSID\"".data,
    "\"YOUR_WIFI_PASSWORD\"".data,
    "\"YOUR_MQTT_SERVER".data,
    "\"YOUR_MQTT_USERNAME\"".data,
    "\"YOUR_MQTT_PASSWORD\"".data,
    "\"YOUR_DEVICE_NAME\"".data,
    "\"YOUR_OPENAI_API_KEY\"".data,
    "\"YOUR_BETTERSTACK_TOKEN\"".data ]

/-- The function `is_config_already_clean`: at least three of the known
placeholder literals occur in the document. -/
def is_config_already_clean (content : List Char) : Bool :=
  3 ≤ (placeholderPatterns.filter (fun p => containsSub content p)).length

/-- The on-disk state the backup/restore coordinator touches: the live
config (`src/core/config.h`), the backup (`src/core/config.h.adam`) and
the timestamped side copies (`config.h.adam.<timestamp>`), each as an
optional document. -/
structure FsState where
  live : Option (List Char)
  backup : Option (List Char)
  sideBackups : List (List Char)
deriving DecidableEq

/-- Result of one `backup_config` run: the new on-disk state, the Python
return value or SystemExit code, and whether the live document was
copied over the backup path (the `shutil.copy2(config_path, backup_path)`
at the end of the function). -/
structure BackupOutcome where
  state : FsState
  result : Except Nat Bool
  copiedLiveToBackup : Bool
deriving DecidableEq

/-- The function `backup_config`.  Copies are modelled as succeeding (the
source catches copy exceptions and returns False; filesystem faults are
outside the model).  The branch structure follows the source: missing
live config exits 1; a clean-looking live config is only accepted when a
backup already exists, else exits 1 before any write; when the existing
backup also looks clean, a timestamped copy of the live document is
written first and then the live document still overwrites the backup;
an existing secret-bearing backup is kept untouched. -/
def backup_config (s : FsState) : BackupOutcome :=
  match s.live with
  | none => ⟨s, .error 1, false⟩
  | some live =>
    if is_config_already_clean live then
      if s.backup.isSome then ⟨s, .ok true, false⟩
      else ⟨s, .error 1, false⟩
    else
      match s.backup with
      | some b =>
        if is_config_already_clean b then
          ⟨⟨s.live, some live, live :: s.sideBackups⟩, .ok true, true⟩
        else ⟨s, .ok true, false⟩
      | none => ⟨⟨s.live, some live, s.sideBackups⟩, .ok true, true⟩

/-- The function `restore_config`: warn and return False when no backup
exists, else copy the backup over the live path. -/
def restore_config (s : FsState) : Bool × FsState :=
  match s.backup with
  | none => (false, s)
  | some b => (true, ⟨some b, s.backup, s.sideBackups⟩)

/-- Abstract outcome of a pipeline step that can return a value or exit
the process (SystemExit). -/
inductive StepRes
  | ok
  | fail
  | fatal (code : Nat)
deriving DecidableEq

/-- Abstract outcome of `create_merged_binary` for one target: success,
merge-tool/artifact failure (returns False), or the fatal SystemExit of
the offset resolver, which no handler in the function catches. -/
inductive TargetMergeRes
  | ok
  | toolFail
  | fatalOffset
deriving DecidableEq

/-- Environment of external outcomes for one orchestrator run: results
of the backup, scrub, frontend and per-target steps, as determined by
the filesystem and the external tools. -/
structure BuildEnv where
  pioIniExists : Bool
  backupRes : StepRes
  scrubRes : StepRes
  frontendOk : Bool
  buildOk : String → Bool
  copyOk : String → Bool
  fsOk : String → Bool
  mergeRes : String → TargetMergeRes

/-- Steps of the orchestrator, recorded in execution order. -/
inductive Ev
  | backupStep
  | scrubStep
  | frontendStep
  | buildStep (t : String)
  | copyStep (t : String)
  | fsStep (t : String)
  | mergeStep (t : String)
  | releaseInfoStep
  | recoverStep
  | restoreStep
deriving DecidableEq

/-- The fixed target list of `main`. -/
def release_targets : List String :=
  ["esp32c3-prod", "esp32c3-prod-no-leds", "lolin32lite-no-leds"]

/-- The per-target loop of `main` (step 4).  A build failure records
failure and moves to the next target; the return values of the copy,
filesystem and merge steps are discarded, except that a fatal
offset-resolution SystemExit in `create_merged_binary` propagates and
aborts the remaining targets. -/
def runTargets (env : BuildEnv) : List String → Bool → (List Ev × Except Nat Bool)
  | [], succ => ([], .ok succ)
  | t :: rest, succ =>
    if env.buildOk t then
      let evs := [Ev.buildStep t, Ev.copyStep t, Ev.fsStep t, Ev.mergeStep t]
      match env.mergeRes t with
      | .fatalOffset => (evs, .error 1)
      | _ =>
        let r := runTargets env rest succ
        (evs ++ r.1, r.2)
    else
      let r := runTargets env rest false
      (Ev.buildStep t :: r.1, r.2)

/-- The body of the `try` block of `main` (steps 1-5): backup, scrub,
frontend build, per-target loop, release info.  A step's SystemExit
aborts the body (error); otherwise the accumulated success flag is
returned. -/
def runBody (env : BuildEnv) : List Ev × Except Nat Bool :=
  match env.backupRes with
  | .fatal c => ([Ev.backupStep], .error c)
  | .fail => ([Ev.backupStep], .error 1)
  | .ok =>
    match env.scrubRes with
    | .fatal c => ([Ev.backupStep, Ev.scrubStep], .error c)
    | .fail => ([Ev.backupStep, Ev.scrubStep, Ev.releaseInfoStep], .ok false)
    | .ok =>
      if env.frontendOk then
        let r := runTargets env release_targets true
        match r.2 with
        | .error c => ([Ev.backupStep, Ev.scrubStep, Ev.frontendStep] ++ r.1, .error c)
        | .ok succ =>
          ([Ev.backupStep, Ev.scrubStep, Ev.frontendStep] ++ r.1 ++ [Ev.releaseInfoStep],
            .ok succ)
      else
        ([Ev.backupStep, Ev.scrubStep, Ev.frontendStep, Ev.releaseInfoStep], .ok false)

/-- The function `main`: recovery mode only runs `recover_config` and
returns; otherwise the directory check precedes the `try` block, whose
`finally` clause always runs `restore_config` before the process exits,
with exit code 0 exactly when every step succeeded. -/
def scribeMain (recoverMode : Bool) (env : BuildEnv) : List Ev × Nat :=
  if recoverMode then ([Ev.recoverStep], 0)
  else if env.pioIniExists = false then ([], 1)
  else
    let r := runBody env
    let evs := r.1 ++ [Ev.restoreStep]
    match r.2 with
    | .error c => (evs, c)
    | .ok succ => (evs, if succ then 0 else 1)

/-- A fully successful environment except that the first target's merge
tool fails. -/
def envMergeFail : BuildEnv :=
  ⟨true, .ok, .ok, true, fun _ => true, fun _ => true, fun _ => true,
    fun t => if t = "esp32c3-prod" then .toolFail else .ok⟩

/-- An all-successful environment (used as a witness input). -/
def envAllOk : BuildEnv :=
  ⟨true, .ok, .ok, true, fun _ => true, fun _ => true, fun _ => true, fun _ => .ok⟩

/-- A document containing three of the known placeholder literals
(looks already clean to `is_config_already_clean`). -/
def cleanLookingDoc : List Char :=
  "\"YOUR_WIFI_SSID\" \"YOUR_WIFI_PASSWORD\" \"YOUR_MQTT_USERNAME\"".data

/-- Derivation of one left-to-right non-overlapping substitution scan:
`Scan r y out` holds when scanning `y` for rule `r` produces `out`. -/
inductive Scan (r : SecretRule) : List Char → List Char → Prop
  | nil : Scan r [] []
  | skip (c : Char) (t out : List Char) :
      matchRuleAt r (c :: t) = none → Scan r t out → Scan r (c :: t) (c :: out)
  | repl (cs repl rest out : List Char) :
      matchRuleAt r cs = some (repl, rest) → Scan r rest out → Scan r cs (repl ++ out)

/-- Every suffix of y that matches rule r at its head is already in
replaced form: the match consumes exactly the replacement text.  A
string with this property is a fixpoint of `subRule r`. -/
def Replaced (r : SecretRule) (y : List Char) : Prop :=
  ∀ v : List Char, v <:+ y → ∀ repl rest, matchRuleAt r v = some (repl, rest) → v = repl ++ rest

/-- A string that cannot start a continuation group: after its leading
whitespace there is no complete quoted segment (so the greedy
`(?:\s*"[^"]*")*` consumes nothing). -/
def NoCont (z : List Char) : Prop := mQuoted ((z.span isPySpace).2) = none

/-- Well-formedness of a secret rule as written in the source: the field
name is a nonempty run of letters, and the placeholder is nonempty,
quote-free and whitespace-free. -/
def RuleWF (r : SecretRule) : Prop :=
  r.fieldName ≠ [] ∧ (∀ c ∈ r.fieldName, c.isAlpha = true) ∧
    r.placeholder ≠ [] ∧ (∀ c ∈ r.placeholder, c ≠ '"' ∧ isPySpace c = false)

/-- The occurrence facts needed about an ordered pair of rules: the
tracked rule's field name occurs neither at a positive offset inside the
scanned rule's field name (nor at offset zero when the rules differ),
nor anywhere inside the scanned rule's placeholder. -/
def PairOK (rp r : SecretRule) : Prop :=
  (∀ j, j < r.fieldName.length → 1 ≤ j ∨ rp ≠ r →
    ¬ rp.fieldName.isPrefixOf (r.fieldName.drop j))
  ∧ (∀ j, j < r.placeholder.length → ¬ rp.fieldName.isPrefixOf (r.placeholder.drop j))

-- ======================================================================
-- Theorems
-- ======================================================================

theorem dropWhile_eq_self_of_all {p : Char → Bool} {l : List Char}
    (h : ∀ c ∈ l, p c = false) : l.dropWhile p = l := by
  cases l with
  | nil => rfl
  | cons c t =>
    rw [List.dropWhile_cons]
    simp [h c (List.mem_cons_self c t)]

theorem pyStrip_eq_self {l : List Char} (h : ∀ c ∈ l, isPySpace c = false) :
    pyStrip l = l := by
  unfold pyStrip
  rw [dropWhile_eq_self_of_all h,
    dropWhile_eq_self_of_all (fun c hc => h c (List.mem_reverse.mp hc)), List.reverse_reverse]

theorem isPySpace_of_isDigit {c : Char} (h : c.isDigit = true) : isPySpace c = false := by
  cases hsp : isPySpace c with
  | false => rfl
  | true =>
    simp only [isPySpace, Bool.or_eq_true, decide_eq_true_eq] at hsp
    rcases hsp with ((((h1 | h1) | h1) | h1) | h1) | h1 <;> subst h1 <;> simp_all

theorem charDecVal_decDigitChar {d : Nat} (h : d < 10) :
    charDecVal (decDigitChar d) = some d := by
  interval_cases d <;> decide

theorem charHexVal_hexDigitChar {d : Nat} (h : d < 16) :
    charHexVal (hexDigitChar d) = some d := by
  interval_cases d <;> decide

theorem decDigitChar_isDigit {d : Nat} (h : d < 10) : (decDigitChar d).isDigit = true := by
  interval_cases d <;> decide

theorem decDigitChar_ne_zero_char {d : Nat} (h : d < 10) (hd : d ≠ 0) :
    decDigitChar d ≠ '0' := by
  interval_cases d <;> simp_all <;> decide

theorem decDigitsBE_all_digit (n : Nat) : ∀ c ∈ decDigitsBE n, c.isDigit = true := by
  intro c hc
  unfold decDigitsBE at hc
  by_cases h : n = 0
  · rw [if_pos h] at hc
    simp only [List.mem_singleton] at hc
    subst hc; decide
  · rw [if_neg h] at hc
    obtain ⟨d, hd, rfl⟩ := List.mem_map.mp hc
    exact decDigitChar_isDigit (Nat.digits_lt_base (by norm_num) (List.mem_reverse.mp hd))

theorem parseFold_map {val : Char → Option Nat} {toChar : Nat → Char} {b : Nat}
    (hrt : ∀ d < b, val (toChar d) = some d) :
    ∀ (L : List Nat) (a : Nat), (∀ d ∈ L, d < b) →
      (L.map toChar).foldl
        (fun acc c =>
          match acc, val c with
          | some a, some d => some (a * b + d)
          | _, _ => none)
        (some a) = some (L.foldl (fun acc d => acc * b + d) a) := by
  intro L
  induction L with
  | nil => intro a _; rfl
  | cons d T ih =>
    intro a hbound
    rw [List.map_cons, List.foldl_cons, List.foldl_cons,
      hrt d (hbound d (List.mem_cons_self d T))]
    exact ih (a * b + d) (fun e he => hbound e (List.mem_cons_of_mem d he))

theorem foldl_reverse_eq_ofDigits (b : Nat) :
    ∀ L : List Nat, L.reverse.foldl (fun acc d => acc * b + d) 0 = Nat.ofDigits b L := by
  intro L
  induction L with
  | nil => simp [Nat.ofDigits]
  | cons d T ih =>
    rw [List.reverse_cons, List.foldl_append, ih, Nat.ofDigits_cons]
    simp [Nat.mul_comm]
    omega

theorem parse_decDigitsBE (n : Nat) :
    parseDigitsWith charDecVal 10 (decDigitsBE n) = some n := by
  by_cases h : n = 0
  · subst h; decide
  · unfold decDigitsBE parseDigitsWith
    rw [if_neg h]
    have hne : (Nat.digits 10 n).reverse.map decDigitChar ≠ [] := by
      simp [Nat.digits_ne_nil_iff_ne_zero.mpr h]
    rw [if_neg hne]
    rw [parseFold_map (fun d hd => charDecVal_decDigitChar hd) _ 0
      (fun d hd => Nat.digits_lt_base (by norm_num) (List.mem_reverse.mp hd))]
    rw [foldl_reverse_eq_ofDigits, Nat.ofDigits_digits]

theorem parse_hexDigitsBE (n : Nat) :
    parseDigitsWith charHexVal 16 (hexDigitsBE n) = some n := by
  by_cases h : n = 0
  · subst h; decide
  · unfold hexDigitsBE parseDigitsWith
    rw [if_neg h]
    have hne : (Nat.digits 16 n).reverse.map hexDigitChar ≠ [] := by
      simp [Nat.digits_ne_nil_iff_ne_zero.mpr h]
    rw [if_neg hne]
    rw [parseFold_map (fun d hd => charHexVal_hexDigitChar hd) _ 0
      (fun d hd => Nat.digits_lt_base (by norm_num) (List.mem_reverse.mp hd))]
    rw [foldl_reverse_eq_ofDigits, Nat.ofDigits_digits]

theorem pyIntBase0_pyHexRepr (n : Nat) : pyIntBase0 (pyHexRepr n) = some n := by
  unfold pyIntBase0 pyHexRepr
  have hpre : "0x".data.isPrefixOf ('0' :: 'x' :: hexDigitsBE n) = true := by
    have h2 : "0x".data = ['0', 'x'] := rfl
    rw [h2]
    simp [List.isPrefixOf]
  rw [hpre]
  simp only [Bool.true_or, if_pos rfl]
  exact parse_hexDigitsBE n

theorem pyIntBase0_decDigitsBE (n : Nat) : pyIntBase0 (decDigitsBE n) = some n := by
  unfold pyIntBase0
  have hnotx : ("0x".data.isPrefixOf (decDigitsBE n) || "0X".data.isPrefixOf (decDigitsBE n))
      = false := by
    have hx : ∀ s : List Char, s.isPrefixOf (decDigitsBE n) = true → 'x' ∉ s ∧ 'X' ∉ s := by
      intro s hs
      obtain ⟨t, ht⟩ := List.isPrefixOf_iff_prefix.mp hs
      constructor <;> intro hmem <;>
        have hd := decDigitsBE_all_digit n _ (by rw [← ht]; exact List.mem_append_left t hmem)
        <;> simp_all
    cases h1 : "0x".data.isPrefixOf (decDigitsBE n) with
    | true =>
      exact absurd (by decide : 'x' ∈ "0x".data) ((hx _ h1).1)
    | false =>
      cases h2 : "0X".data.isPrefixOf (decDigitsBE n) with
      | true => exact absurd (by decide : 'X' ∈ "0X".data) ((hx _ h2).2)
      | false => rfl
  rw [hnotx]
  simp only [Bool.false_eq_true, if_false]
  have hall : ((decDigitsBE n).all Char.isDigit) = true :=
    List.all_eq_true.mpr (fun c hc => decDigitsBE_all_digit n c hc)
  have hnonempty : (decDigitsBE n).isEmpty = false := by
    unfold decDigitsBE
    by_cases h : n = 0
    · simp [h]
    · simp [h, Nat.digits_ne_nil_iff_ne_zero.mpr h]
  rw [hnonempty, hall]
  simp only [Bool.not_false, Bool.true_and, if_pos rfl]
  by_cases h : n = 0
  · subst h; decide
  · have hzero : ((decDigitsBE n).headD ' ' = '0' && !(decDigitsBE n).all fun c => c = '0')
        = false := by
      have hne : Nat.digits 10 n ≠ [] := Nat.digits_ne_nil_iff_ne_zero.mpr h
      have hrevne : (Nat.digits 10 n).reverse ≠ [] := by simpa using hne
      obtain ⟨d, T, hdT⟩ := List.exists_cons_of_ne_nil hrevne
      have hhead : (decDigitsBE n).headD ' ' = decDigitChar d := by
        unfold decDigitsBE
        rw [if_neg h, hdT]
        rfl
      have hlast : (Nat.digits 10 n).getLast? = some d := by
        rw [← List.head?_reverse, hdT]
        rfl
      have hdne : d ≠ 0 := by
        have hg := Nat.getLast_digit_ne_zero 10 h
        rw [List.getLast?_eq_getLast _ hne] at hlast
        exact (Option.some.injEq _ _ ▸ hlast : _ = d) ▸ hg
      have hdlt : d < 10 :=
        Nat.digits_lt_base (by norm_num) (by
          rw [← List.mem_reverse, hdT]; exact List.mem_cons_self d T)
      rw [hhead]
      simp [decDigitChar_ne_zero_char hdlt hdne]
    rw [hzero]
    simp only [Bool.false_eq_true, if_false]
    exact parse_decDigitsBE n

/-- The residual-secret list is empty exactly when every suspicious-pattern
match contains a placeholder keyword. -/
theorem potentialSecrets_eq_nil_iff (y : List Char) :
    potentialSecrets y = [] ↔
      ∀ k ∈ get_suspicious_patterns, ∀ m ∈ findall k y, isPlaceholderMatch m = true := by
  unfold potentialSecrets
  rw [List.flatten_eq_nil_iff]
  constructor
  · intro h k hk m hm
    have hf := h ((findall k y).filter (fun m => !isPlaceholderMatch m))
      (List.mem_map.mpr ⟨k, hk, rfl⟩)
    rw [List.filter_eq_nil_iff] at hf
    have := hf m hm
    simpa using this
  · intro h l hl
    obtain ⟨k, hk, rfl⟩ := List.mem_map.mp hl
    rw [List.filter_eq_nil_iff]
    intro m hm
    simpa using h k hk m hm

/-- C1: `clean_secrets_from_content` signals the residual-secret error
(SystemExit 1) if and only if, after applying the nine field-anchored
replacement rules, some suspicious-pattern match contains none of the
placeholder keywords; when it returns normally, the returned text is
exactly the rule-applied text and the residual scan over it finds zero
such matches. -/
theorem clean_secrets_error_iff_residual (x : List Char) :
    (clean_secrets_from_content x = .error 1 ↔
      ∃ k ∈ get_suspicious_patterns, ∃ m ∈ findall k (applySecretPatterns x),
        isPlaceholderMatch m = false)
    ∧ ∀ z, clean_secrets_from_content x = .ok z →
        z = applySecretPatterns x ∧ potentialSecrets z = [] := by
  have hmain : clean_secrets_from_content x =
      (if potentialSecrets (applySecretPatterns x) = [] then .ok (applySecretPatterns x)
        else .error 1) := by
    unfold clean_secrets_from_content validate_no_secrets_remain
    by_cases h : potentialSecrets (applySecretPatterns x) = [] <;> simp [h]
  by_cases h : potentialSecrets (applySecretPatterns x) = []
  · rw [hmain, if_pos h]
    constructor
    · constructor
      · intro hc
        exact absurd hc (by simp)
      · intro ⟨k, hk, m, hm, hph⟩
        have := (potentialSecrets_eq_nil_iff (applySecretPatterns x)).mp h k hk m hm
        rw [this] at hph
        exact absurd hph (by simp)
    · intro z hz
      have hz2 : applySecretPatterns x = z := by simpa using hz
      exact ⟨hz2.symm, hz2 ▸ h⟩
  · rw [hmain, if_neg h]
    constructor
    · constructor
      · intro _
        have hne := (not_iff_not.mpr (potentialSecrets_eq_nil_iff (applySecretPatterns x))).mp h
        push_neg at hne
        obtain ⟨k, hk, m, hm, hph⟩ := hne
        exact ⟨k, hk, m, hm, by simpa using hph⟩
      · intro _
        rfl
    · intro z hz
      exact absurd hz (by simp)

/-- Witness for C1 at a concrete document that scrubs cleanly. -/
theorem clean_secrets_error_iff_residual_witness :
    clean_secrets_from_content passwordDoc = .ok (applySecretPatterns passwordDoc) ∧
      potentialSecrets (applySecretPatterns passwordDoc) = [] := by
  have hok : clean_secrets_from_content passwordDoc = .ok (applySecretPatterns passwordDoc) := by
    decide
  exact ⟨hok, ((clean_secrets_error_iff_residual passwordDoc).2 _ hok).2⟩

/-- C9 counterexample: `trickyDoc` contains the exact line
`defaultWifiPassword = "SuperSecret123"`, yet the scrub output contains
neither the WiFi-password placeholder nor removes the literal secret:
the SSID rule of the preceding line swallows the password anchor. -/
theorem scrub_password_line_claim_fails :
    trickyDoc = "defaultWifiSSID = \"a\" \"X\n".data ++ passwordLine ∧
    clean_secrets_from_content trickyDoc = .ok trickyDocOut ∧
    containsSub trickyDocOut "YOUR_WIFI_PASSWORD".data = false ∧
    containsSub trickyDocOut "SuperSecret123".data = true := by
  refine ⟨rfl, by decide, by decide, by decide⟩

/-- C9 amended: for the single-line document
`defaultWifiPassword = "SuperSecret123"`, scrubbing succeeds, the output
contains the fixed WiFi-password placeholder, and the literal secret is
gone. -/
theorem scrub_password_line_single :
    clean_secrets_from_content passwordDoc = .ok passwordDocOut ∧
    containsSub passwordDocOut "YOUR_WIFI_PASSWORD".data = true ∧
    containsSub passwordDocOut "SuperSecret123".data = false := by
  refine ⟨by decide, by decide, by decide⟩


theorem splitOnComma_append (s t : List Char) (h : ∀ c ∈ s, c ≠ ',') :
    splitOnComma (s ++ ',' :: t) = s :: splitOnComma t := by
  induction s with
  | nil => simp [splitOnComma]
  | cons c s ih =>
    have hc : c ≠ ',' := h c (List.mem_cons_self c s)
    have ih2 := ih (fun d hd => h d (List.mem_cons_of_mem c hd))
    simp [splitOnComma, hc, ih2]

theorem splitOnComma_no_comma (s : List Char) (h : ∀ c ∈ s, c ≠ ',') :
    splitOnComma s = [s] := by
  induction s with
  | nil => rfl
  | cons c s ih =>
    have hc : c ≠ ',' := h c (List.mem_cons_self c s)
    have ih2 := ih (fun d hd => h d (List.mem_cons_of_mem c hd))
    simp [splitOnComma, hc, ih2]

theorem decDigitsBE_no_comma (n : Nat) : ∀ c ∈ decDigitsBE n, c ≠ ',' := by
  intro c hc heq
  have := decDigitsBE_all_digit n c hc
  subst heq
  simp_all

theorem parseCsvLine_decOffsetLine (n : Nat) :
    parseCsvLine (decOffsetLine n) =
      ["littlefs".data, "data".data, "spiffs".data, decDigitsBE n, "0x180000".data] := by
  have hline : decOffsetLine n =
      "littlefs".data ++ ',' ::
        ("data".data ++ ',' ::
          ("spiffs".data ++ ',' :: (decDigitsBE n ++ ',' :: "0x180000".data))) := rfl
  have hne : decOffsetLine n ≠ [] := by
    rw [hline]; simp
  unfold parseCsvLine
  rw [if_neg hne, hline]
  rw [splitOnComma_append _ _ (by decide)]
  rw [splitOnComma_append _ _ (by decide)]
  rw [splitOnComma_append _ _ (by decide)]
  rw [splitOnComma_append _ _ (decDigitsBE_no_comma n)]
  rw [splitOnComma_no_comma _ (by decide)]

theorem isPrefixOf_false_of_mem {s l : List Char} {c : Char} (hc : c ∈ s) (hnl : c ∉ l) :
    s.isPrefixOf l = false := by
  cases hp : s.isPrefixOf l with
  | false => rfl
  | true =>
    obtain ⟨t, ht⟩ := List.isPrefixOf_iff_prefix.mp hp
    exact absurd (ht ▸ List.mem_append_left t hc) hnl

theorem x_not_mem_decDigitsBE (n : Nat) : 'x' ∉ decDigitsBE n := by
  intro hm
  have := decDigitsBE_all_digit n _ hm
  exact absurd this (by decide)

theorem getFsOffsetRows_littlefs_row (off : List Char) (m : Nat)
    (hstrip : pyStrip off = off) (hx : "0x".data.isPrefixOf off = false)
    (hparse : pyIntBase0 off = some m) :
    getFsOffsetRows [["littlefs".data, "data".data, "spiffs".data, off, "0x180000".data]]
      = .ok (pyHexRepr m) := by
  unfold getFsOffsetRows
  simp only [List.isEmpty_cons, List.headD_cons, Bool.false_or, List.length_cons,
    List.length_nil, List.getD, List.get?, Option.getD_some]
  rw [show ['#'].isPrefixOf (pyStrip "littlefs".data) = false from by decide]
  simp only [Bool.false_eq_true, if_false]
  rw [if_pos (show 5 ≤ 0 + 1 + 1 + 1 + 1 + 1 from by norm_num)]
  rw [show (pyStrip "littlefs".data).map Char.toLower = "littlefs".data from by decide]
  rw [if_pos rfl]
  rw [hstrip, hx]
  simp only [Bool.false_eq_true, if_false, hparse]


/-- C5: the offset resolver returns the littlefs offset column as a
0x-prefixed hex string: a hex offset is returned as-is, and a decimal
offset is normalized through `hex(int(offset, 0))` to the equivalent
0x-prefixed hex string (its value under the same literal parser is the
original number). -/
theorem fs_offset_normalization :
    getFsOffsetFromPartitions ["littlefs,data,spiffs,0x210000,0x180000".data] =
      .ok "0x210000".data
    ∧ ∀ n : Nat,
        getFsOffsetFromPartitions [decOffsetLine n] = .ok (pyHexRepr n)
        ∧ pyIntBase0 (pyHexRepr n) = some n := by
  refine ⟨by decide, fun n => ⟨?_, pyIntBase0_pyHexRepr n⟩⟩
  unfold getFsOffsetFromPartitions
  rw [List.map_singleton, parseCsvLine_decOffsetLine]
  have hdig := decDigitsBE_all_digit n
  exact getFsOffsetRows_littlefs_row (decDigitsBE n) n
    (pyStrip_eq_self (fun c hc => isPySpace_of_isDigit (hdig c hc)))
    (isPrefixOf_false_of_mem (by decide : 'x' ∈ "0x".data) (x_not_mem_decDigitsBE n))
    (pyIntBase0_decDigitsBE n)

theorem getFsOffsetRows_error_of_no_candidate :
    ∀ rows : List (List (List Char)),
      (∀ row ∈ rows, rowIsLittlefsCandidate row = false) →
      getFsOffsetRows rows = .error 1 := by
  intro rows
  induction rows with
  | nil => intro _; rfl
  | cons row rest ih =>
    intro h
    have hrow := h row (List.mem_cons_self row rest)
    have hrest := fun r hr => h r (List.mem_cons_of_mem row hr)
    unfold getFsOffsetRows
    by_cases h1 : (row.isEmpty || ['#'].isPrefixOf (pyStrip (row.headD []))) = true
    · rw [if_pos h1]; exact ih hrest
    · rw [if_neg h1]
      simp only [Bool.or_eq_true, not_or, Bool.not_eq_true] at h1
      by_cases h2 : 5 ≤ row.length
      · rw [if_pos h2]
        obtain ⟨f, r2, rfl⟩ : ∃ f r2, row = f :: r2 := by
          cases row with
          | nil => simp at h1
          | cons f r2 => exact ⟨f, r2, rfl⟩
        have hname : ¬((pyStrip ((f :: r2).headD [])).map Char.toLower = "littlefs".data) := by
          intro heq
          have : rowIsLittlefsCandidate (f :: r2) = true := by
            simp only [rowIsLittlefsCandidate, rowNamedLittlefs, List.headD_cons] at *
            simp [h1.1, h1.2, heq]
          rw [hrow] at this
          exact absurd this (by simp)
        rw [if_neg hname]
        exact ih hrest
      · rw [if_neg h2]; exact ih hrest

/-- C6: when no (non-blank, non-comment) row of the partition table is
named `littlefs` (case-insensitively), the offset resolver exits fatally
with SystemExit 1 instead of returning a fallback offset, and
`create_merged_binary` never invokes the merge tool on such a table. -/
theorem missing_littlefs_aborts_merge (lines : List (List Char))
    (h : ∀ row ∈ lines.map parseCsvLine, rowIsLittlefsCandidate row = false) :
    getFsOffsetFromPartitions lines = .error 1
    ∧ ∀ (env : List Char) (filesPresent mergeToolOk : Bool),
        (create_merged_binary env filesPresent lines mergeToolOk).mergeToolInvoked = false := by
  have herr : getFsOffsetFromPartitions lines = .error 1 :=
    getFsOffsetRows_error_of_no_candidate _ h
  refine ⟨herr, fun env fp toolOk => ?_⟩
  unfold create_merged_binary
  cases fp with
  | false => rfl
  | true => rw [herr]; rfl

/-- Witness for C6 on a concrete table with comment, blank and
non-littlefs rows only. -/
theorem missing_littlefs_aborts_merge_witness :
    (∀ row ∈ (["# name, type, subtype, offset, size".data, [],
        "app,app,factory,0x10000,0x200000".data] : List (List Char)).map parseCsvLine,
      rowIsLittlefsCandidate row = false)
    ∧ getFsOffsetFromPartitions ["# name, type, subtype, offset, size".data, [],
        "app,app,factory,0x10000,0x200000".data] = .error 1 := by
  refine ⟨by decide, ?_⟩
  exact (missing_littlefs_aborts_merge _ (by decide)).1

theorem getFsOffsetRows_error_of_short_littlefs :
    ∀ rows : List (List (List Char)),
      (∀ row ∈ rows, rowNamedLittlefs row = true → row.length < 5) →
      getFsOffsetRows rows = .error 1 := by
  intro rows
  induction rows with
  | nil => intro _; rfl
  | cons row rest ih =>
    intro h
    have hrow := h row (List.mem_cons_self row rest)
    have hrest := fun r hr => h r (List.mem_cons_of_mem row hr)
    unfold getFsOffsetRows
    by_cases h1 : (row.isEmpty || ['#'].isPrefixOf (pyStrip (row.headD []))) = true
    · rw [if_pos h1]; exact ih hrest
    · rw [if_neg h1]
      simp only [Bool.or_eq_true, not_or, Bool.not_eq_true] at h1
      by_cases h2 : 5 ≤ row.length
      · rw [if_pos h2]
        obtain ⟨f, r2, rfl⟩ : ∃ f r2, row = f :: r2 := by
          cases row with
          | nil => simp at h1
          | cons f r2 => exact ⟨f, r2, rfl⟩
        have hname : ¬((pyStrip ((f :: r2).headD [])).map Char.toLower = "littlefs".data) := by
          intro heq
          have hnamed : rowNamedLittlefs (f :: r2) = true := by
            simp only [rowNamedLittlefs, List.headD_cons] at *
            simp [heq]
          have := hrow hnamed
          omega
        rw [if_neg hname]
        exact ih hrest
      · rw [if_neg h2]; exact ih hrest

/-- C10: rows with fewer than five comma-separated fields are skipped by
the resolver even when named `littlefs`, so a table whose littlefs rows
are all short produces the fatal SystemExit 1 rather than a mis-parsed
offset. -/
theorem short_littlefs_row_skipped (lines : List (List Char))
    (h : ∀ row ∈ lines.map parseCsvLine, rowNamedLittlefs row = true → row.length < 5) :
    getFsOffsetFromPartitions lines = .error 1 :=
  getFsOffsetRows_error_of_short_littlefs _ h

/-- Witness for C10 on a table whose only littlefs row has four fields. -/
theorem short_littlefs_row_skipped_witness :
    (∀ row ∈ (["littlefs,data,spiffs,0x210000".data] : List (List Char)).map parseCsvLine,
      rowNamedLittlefs row = true → row.length < 5)
    ∧ getFsOffsetFromPartitions ["littlefs,data,spiffs,0x210000".data] = .error 1 := by
  refine ⟨by decide, ?_⟩
  exact short_littlefs_row_skipped _ (by decide)

/-- C3: when the live config exists and looks already clean (at least
three known placeholder literals) and no backup exists, `backup_config`
exits fatally with SystemExit 1 and performs no write: the live
document, backup path and timestamped side copies are all unchanged. -/
theorem backup_refuses_clean_live_without_backup (s : FsState) (x : List Char)
    (hlive : s.live = some x) (hclean : is_config_already_clean x = true)
    (hnb : s.backup = none) :
    backup_config s = ⟨s, .error 1, false⟩ := by
  unfold backup_config
  rw [hlive]
  simp [hclean, hnb]

/-- Witness for C3 on a concrete clean-looking live config. -/
theorem backup_refuses_clean_live_without_backup_witness :
    is_config_already_clean cleanLookingDoc = true ∧
    backup_config ⟨some cleanLookingDoc, none, []⟩ =
      ⟨⟨some cleanLookingDoc, none, []⟩, .error 1, false⟩ :=
  ⟨by decide, backup_refuses_clean_live_without_backup _ _ rfl (by decide) rfl⟩

/-- C8: when `backup_config` actually copies the live document x to the
backup path, a subsequent `restore_config` (with no intervening mutation,
modelled by running it on the state `backup_config` left) succeeds and
reproduces x exactly at the live path. -/
theorem backup_restore_roundtrip (s : FsState) (x : List Char)
    (hlive : s.live = some x)
    (hcopy : (backup_config s).copiedLiveToBackup = true) :
    (restore_config (backup_config s).state).1 = true ∧
    (restore_config (backup_config s).state).2.live = some x := by
  unfold backup_config at *
  rw [hlive] at hcopy ⊢
  by_cases hclean : is_config_already_clean x = true
  · exfalso
    by_cases hb : s.backup.isSome = true <;> simp [hclean, hb] at hcopy
  · simp only [Bool.not_eq_true] at hclean
    cases hb : s.backup with
    | none =>
      simp only [hclean, hb, Bool.false_eq_true, if_false] at hcopy ⊢
      exact ⟨rfl, rfl⟩
    | some b =>
      by_cases hbc : is_config_already_clean b = true
      · simp only [hclean, hb, hbc, Bool.false_eq_true, if_false, if_true] at hcopy ⊢
        exact ⟨rfl, rfl⟩
      · simp only [Bool.not_eq_true] at hbc
        simp [hclean, hb, hbc] at hcopy

/-- Witness for C8 on a secret-bearing live config with no backup. -/
theorem backup_restore_roundtrip_witness :
    (backup_config ⟨some passwordLine, none, []⟩).copiedLiveToBackup = true ∧
    (restore_config (backup_config ⟨some passwordLine, none, []⟩).state).2.live =
      some passwordLine :=
  ⟨by decide, (backup_restore_roundtrip ⟨some passwordLine, none, []⟩ passwordLine rfl
    (by decide)).2⟩

/-- C4: in every non-recovery run that enters the build pipeline, the
guaranteed-cleanup `finally` clause makes `restore_config` the last step
of the run, whatever the outcomes of backup, scrub, frontend build and
the per-target steps (including fatal SystemExits). -/
theorem restore_always_runs (env : BuildEnv) (hpio : env.pioIniExists = true) :
    (scribeMain false env).1.getLast? = some Ev.restoreStep
    ∧ Ev.restoreStep ∈ (scribeMain false env).1 := by
  unfold scribeMain
  simp only [hpio, Bool.false_eq_true, Bool.true_eq_false, if_false]
  cases h2 : (runBody env).2 with
  | error c =>
    simp only [h2, List.getLast?_concat]
    exact ⟨trivial, List.mem_append_right _ (List.mem_singleton_self _)⟩
  | ok succ =>
    simp only [h2, List.getLast?_concat]
    exact ⟨trivial, List.mem_append_right _ (List.mem_singleton_self _)⟩

/-- Witness for C4 on an all-successful environment. -/
theorem restore_always_runs_witness :
    envAllOk.pioIniExists = true ∧ Ev.restoreStep ∈ (scribeMain false envAllOk).1 :=
  ⟨rfl, (restore_always_runs envAllOk rfl).2⟩

/-- C7 counterexample: in a run where the first target's merge step
fails (merge tool returns non-zero) and everything else succeeds, the
sibling targets are still attempted but the failure is not recorded:
the run exits 0, contradicting the claim that a per-target merge
failure makes the overall run report failure. -/
theorem per_target_merge_failure_not_recorded :
    envMergeFail.mergeRes "esp32c3-prod" = .toolFail
    ∧ Ev.mergeStep "esp32c3-prod" ∈ (scribeMain false envMergeFail).1
    ∧ Ev.buildStep "esp32c3-prod-no-leds" ∈ (scribeMain false envMergeFail).1
    ∧ (scribeMain false envMergeFail).2 = 0 := by
  refine ⟨rfl, by decide, by decide, by decide⟩

theorem runTargets_spec (env : BuildEnv) (hm : ∀ t, env.mergeRes t ≠ .fatalOffset) :
    ∀ (ts : List String) (succ : Bool),
      (runTargets env ts succ).2 = .ok (succ && ts.all env.buildOk)
      ∧ (∀ t ∈ ts, Ev.buildStep t ∈ (runTargets env ts succ).1)
      ∧ (∀ t ∈ ts, env.buildOk t = true →
          Ev.copyStep t ∈ (runTargets env ts succ).1
          ∧ Ev.fsStep t ∈ (runTargets env ts succ).1
          ∧ Ev.mergeStep t ∈ (runTargets env ts succ).1) := by
  intro ts
  induction ts with
  | nil => intro succ; simp [runTargets]
  | cons t rest ih =>
    intro succ
    by_cases hbt : env.buildOk t = true
    · have harm : ∀ out, env.mergeRes t = out → out ≠ TargetMergeRes.fatalOffset := by
        intro out hout
        rw [← hout]; exact hm t
      cases hmt : env.mergeRes t with
      | fatalOffset => exact absurd hmt (hm t)
      | ok =>
        unfold runTargets
        rw [if_pos hbt, hmt]
        refine ⟨?_, ?_, ?_⟩
        · simp [List.all_cons, hbt, (ih succ).1]
        · intro u hu
          rcases List.mem_cons.mp hu with rfl | hu2
          · simp
          · exact List.mem_append_right _ ((ih succ).2.1 u hu2)
        · intro u hu hbu
          rcases List.mem_cons.mp hu with rfl | hu2
          · refine ⟨by simp, by simp, by simp⟩
          · obtain ⟨hc, hf, hmem⟩ := (ih succ).2.2 u hu2 hbu
            exact ⟨List.mem_append_right _ hc, List.mem_append_right _ hf,
              List.mem_append_right _ hmem⟩
      | toolFail =>
        unfold runTargets
        rw [if_pos hbt, hmt]
        refine ⟨?_, ?_, ?_⟩
        · simp [List.all_cons, hbt, (ih succ).1]
        · intro u hu
          rcases List.mem_cons.mp hu with rfl | hu2
          · simp
          · exact List.mem_append_right _ ((ih succ).2.1 u hu2)
        · intro u hu hbu
          rcases List.mem_cons.mp hu with rfl | hu2
          · refine ⟨by simp, by simp, by simp⟩
          · obtain ⟨hc, hf, hmem⟩ := (ih succ).2.2 u hu2 hbu
            exact ⟨List.mem_append_right _ hc, List.mem_append_right _ hf,
              List.mem_append_right _ hmem⟩
    · unfold runTargets
      rw [if_neg hbt]
      simp only [Bool.not_eq_true] at hbt
      refine ⟨?_, ?_, ?_⟩
      · simp [List.all_cons, hbt, (ih false).1]
      · intro u hu
        rcases List.mem_cons.mp hu with rfl | hu2
        · exact List.mem_cons_self _ _
        · exact List.mem_cons_of_mem _ ((ih false).2.1 u hu2)
      · intro u hu hbu
        rcases List.mem_cons.mp hu with rfl | hu2
        · rw [hbt] at hbu; exact absurd hbu (by simp)
        · obtain ⟨hc, hf, hmem⟩ := (ih false).2.2 u hu2 hbu
          exact ⟨List.mem_cons_of_mem _ hc, List.mem_cons_of_mem _ hf,
            List.mem_cons_of_mem _ hmem⟩

/-- C7 amended: provided no target's merge-offset resolution exits
fatally, every target's build is attempted regardless of sibling
failures; a target whose build succeeds also has its copy, filesystem
and merge steps attempted; a build failure of any target is recorded
(the run exits non-zero).  Per-target copy/filesystem/merge-tool
failures do not abort the siblings, but (unlike the original claim)
they are not reflected in the overall result, and a fatal merge-offset
exit aborts the remaining targets. -/
theorem per_target_independence_amended (env : BuildEnv)
    (hpio : env.pioIniExists = true) (hb : env.backupRes = .ok) (hs : env.scrubRes = .ok)
    (hf : env.frontendOk = true)
    (hm : ∀ t, env.mergeRes t ≠ .fatalOffset) :
    (∀ t ∈ release_targets, Ev.buildStep t ∈ (scribeMain false env).1)
    ∧ ((∃ t ∈ release_targets, env.buildOk t = false) → (scribeMain false env).2 ≠ 0)
    ∧ (∀ t ∈ release_targets, env.buildOk t = true →
        Ev.copyStep t ∈ (scribeMain false env).1
        ∧ Ev.fsStep t ∈ (scribeMain false env).1
        ∧ Ev.mergeStep t ∈ (scribeMain false env).1) := by
  have hrt := runTargets_spec env hm release_targets true
  have hbody : runBody env =
      ([Ev.backupStep, Ev.scrubStep, Ev.frontendStep] ++ (runTargets env release_targets true).1
        ++ [Ev.releaseInfoStep], .ok (true && release_targets.all env.buildOk)) := by
    unfold runBody
    rw [hb, hs]
    simp only [hf, if_true]
    rw [hrt.1]
  have hmain : scribeMain false env =
      (([Ev.backupStep, Ev.scrubStep, Ev.frontendStep]
          ++ (runTargets env release_targets true).1 ++ [Ev.releaseInfoStep])
        ++ [Ev.restoreStep],
        if (true && release_targets.all env.buildOk) then 0 else 1) := by
    unfold scribeMain
    simp only [hpio, hbody, Bool.false_eq_true, Bool.true_eq_false, if_false]
  rw [hmain]
  refine ⟨?_, ?_, ?_⟩
  · intro t ht
    exact List.mem_append_left _ (List.mem_append_left _
      (List.mem_append_right _ (hrt.2.1 t ht)))
  · intro ⟨t, ht, hbt⟩
    have hall : release_targets.all env.buildOk = false := by
      rcases hall2 : release_targets.all env.buildOk with _ | _
      · rfl
      · have := List.all_eq_true.mp hall2 t ht
        rw [hbt] at this
        exact absurd this (by simp)
    simp [hall]
  · intro t ht hbt
    obtain ⟨hc, hfm, hmem⟩ := hrt.2.2 t ht hbt
    exact ⟨List.mem_append_left _ (List.mem_append_left _ (List.mem_append_right _ hc)),
      List.mem_append_left _ (List.mem_append_left _ (List.mem_append_right _ hfm)),
      List.mem_append_left _ (List.mem_append_left _ (List.mem_append_right _ hmem))⟩

/-- Witness for the amended C7: with the merge-tool failure on the first
target, every target is still attempted. -/
theorem per_target_independence_amended_witness :
    (∀ t, envMergeFail.mergeRes t ≠ .fatalOffset) ∧
    (∀ t ∈ release_targets, Ev.buildStep t ∈ (scribeMain false envMergeFail).1) := by
  have hm : ∀ t, envMergeFail.mergeRes t ≠ .fatalOffset := by
    intro t h
    simp only [envMergeFail] at h
    by_cases ht : t = "esp32c3-prod" <;> simp [ht] at h
  exact ⟨hm, (per_target_independence_amended envMergeFail rfl rfl rfl rfl hm).1⟩

theorem span_append (p : Char → Bool) (l : List Char) : (l.span p).1 ++ (l.span p).2 = l := by
  simp [List.span_eq_take_drop, List.takeWhile_append_dropWhile]

theorem mQuoted_decomp {cs content rest : List Char}
    (h : mQuoted cs = some (content, rest)) :
    cs = '"' :: content ++ '"' :: rest := by
  unfold mQuoted at h
  split at h
  · exact absurd h (by simp)
  · rename_i c t
    split at h
    · rename_i hc
      subst hc
      split at h
      · rename_i c2 r hb
        split at h
        · rename_i hc2
          subst hc2
          simp only [Option.some.injEq, Prod.mk.injEq] at h
          obtain ⟨rfl, rfl⟩ := h
          have hspan := span_append (fun x => x ≠ '"') t
          rw [hb] at hspan
          simp only [List.cons_append, List.cons.injEq, true_and]
          exact hspan.symm
        · exact absurd h (by simp)
      · exact absurd h (by simp)
    · exact absurd h (by simp)

theorem mContGo_decomp : ∀ (fuel : Nat) (cs : List Char),
    (mContGo fuel cs).1 ++ (mContGo fuel cs).2 = cs := by
  intro fuel
  induction fuel with
  | zero => intro cs; rfl
  | succ fuel ih =>
    intro cs
    unfold mContGo
    rcases hq : mQuoted (cs.span isPySpace).2 with _ | ⟨content, rest⟩
    · simp only [hq]
      simp
    · simp only [hq]
      have h1 := span_append isPySpace cs
      rw [mQuoted_decomp hq] at h1
      have h3 := ih rest
      simp only [List.append_assoc, List.cons_append] at h1 ⊢
      rw [h3]
      exact h1

theorem mCont_decomp (cs : List Char) : (mCont cs).1 ++ (mCont cs).2 = cs :=
  mContGo_decomp cs.length cs

theorem mAnchor_decomp {name cs atext rest : List Char}
    (h : mAnchor name cs = some (atext, rest)) :
    cs = atext ++ rest ∧ ('=' :: []) <:+: atext := by
  unfold mAnchor at h
  split at h
  · rename_i hp
    split at h
    · rename_i c t2 hw1
      split at h
      · rename_i hc
        subst hc
        simp only [Option.some.injEq, Prod.mk.injEq] at h
        obtain ⟨rfl, rfl⟩ := h
        refine ⟨?_, name ++ ((cs.drop name.length).span isPySpace).1,
          (t2.span isPySpace).1, by simp⟩
        obtain ⟨t, ht⟩ := List.isPrefixOf_iff_prefix.mp hp
        have hdrop : cs.drop name.length = t := by
          rw [← ht, List.drop_left]
        have h1 : (t.span isPySpace).1 ++ '=' :: t2 = t := by
          have := span_append isPySpace (cs.drop name.length)
          rw [hw1, hdrop] at this
          exact this
        have h2 := span_append isPySpace t2
        rw [hdrop, ← ht]
        simp only [List.append_assoc, List.cons_append, List.append_cancel_left_eq]
        rw [h2]
        exact h1.symm
      · exact absurd h (by simp)
    · exact absurd h (by simp)
  · exact absurd h (by simp)

theorem matchRuleAt_decomp {r : SecretRule} {cs repl rest : List Char}
    (h : matchRuleAt r cs = some (repl, rest)) :
    ∃ consumed, cs = consumed ++ rest ∧ 1 ≤ consumed.length := by
  unfold matchRuleAt at h
  split at h
  · exact absurd h (by simp)
  · rename_i atext rest1 ha
    split at h
    · exact absurd h (by simp)
    · rename_i content rest2 hq
      split at h
      · rename_i hv
        simp only [Option.some.injEq, Prod.mk.injEq] at h
        obtain ⟨rfl, rfl⟩ := h
        obtain ⟨hcs, heq⟩ := mAnchor_decomp ha
        refine ⟨atext ++ '"' :: content ++ '"' :: (mCont rest2).1, ?_, ?_⟩
        · rw [hcs, mQuoted_decomp hq]
          have h3 := mCont_decomp rest2
          simp only [List.append_assoc, List.cons_append]
          rw [h3]
        · obtain ⟨e1, e2, hae⟩ := heq
          have : atext.length ≥ 1 := by
            rw [← hae]
            simp only [List.length_append, List.length_cons]
            omega
          simp only [List.length_append, List.length_cons]
          omega
      · exact absurd h (by simp)

theorem Replaced.suffix_closed {r : SecretRule} {y v : List Char}
    (h : Replaced r y) (hs : v <:+ y) : Replaced r v :=
  fun w hw => h w (hw.trans hs)

theorem subRuleGo_eq_self (r : SecretRule) :
    ∀ (fuel : Nat) (y : List Char), y.length ≤ fuel → Replaced r y →
      subRuleGo r fuel y = y := by
  intro fuel
  induction fuel with
  | zero =>
    intro y hlen _
    interval_cases h : y.length
    · exact (List.length_eq_zero.mp h) ▸ rfl
  | succ fuel ih =>
    intro y hlen hrep
    unfold subRuleGo
    rcases hm : matchRuleAt r y with _ | ⟨repl, rest⟩
    · match y with
      | [] => rfl
      | c :: t =>
        show c :: subRuleGo r fuel t = c :: t
        have ht : Replaced r t := hrep.suffix_closed ⟨[c], rfl⟩
        rw [ih t (by simp at hlen; omega) ht]
    · have hy : y = repl ++ rest := hrep y (List.suffix_refl y) repl rest hm
      obtain ⟨consumed, hc, hc1⟩ := matchRuleAt_decomp hm
      have hrest : Replaced r rest := hrep.suffix_closed ⟨consumed, hc.symm⟩
      have hrl : rest.length ≤ fuel := by
        have : y.length = consumed.length + rest.length := by rw [hc]; simp
        omega
      show repl ++ subRuleGo r fuel rest = y
      rw [ih rest hrl hrest]
      exact hy.symm

theorem subRule_eq_self {r : SecretRule} {y : List Char} (h : Replaced r y) :
    subRule r y = y :=
  subRuleGo_eq_self r y.length y le_rfl h

theorem scan_subRuleGo (r : SecretRule) :
    ∀ (fuel : Nat) (y : List Char), y.length ≤ fuel → Scan r y (subRuleGo r fuel y) := by
  intro fuel
  induction fuel with
  | zero =>
    intro y hlen
    interval_cases h : y.length
    · rw [List.length_eq_zero.mp h]
      exact Scan.nil
  | succ fuel ih =>
    intro y hlen
    unfold subRuleGo
    rcases hm : matchRuleAt r y with _ | ⟨repl, rest⟩
    · match y with
      | [] => exact Scan.nil
      | c :: t =>
        show Scan r (c :: t) (c :: subRuleGo r fuel t)
        exact Scan.skip c t _ hm (ih t (by simp at hlen; omega))
    · obtain ⟨consumed, hc, hc1⟩ := matchRuleAt_decomp hm
      have hrl : rest.length ≤ fuel := by
        have : y.length = consumed.length + rest.length := by rw [hc]; simp
        omega
      show Scan r y (repl ++ subRuleGo r fuel rest)
      exact Scan.repl y repl rest _ hm (ih rest hrl)

theorem scan_subRule (r : SecretRule) (y : List Char) : Scan r y (subRule r y) :=
  scan_subRuleGo r y.length y le_rfl

theorem ws_not_alpha {c : Char} (h : isPySpace c = true) : c.isAlpha = false := by
  simp only [isPySpace, Bool.or_eq_true, decide_eq_true_eq] at h
  rcases h with ((((h1 | h1) | h1) | h1) | h1) | h1 <;> subst h1 <;> decide

theorem quote_not_ws : isPySpace '"' = false := by decide

theorem quote_not_alpha : ('"').isAlpha = false := by decide

theorem eq_not_alpha : ('=').isAlpha = false := by decide

theorem eq_not_ws : isPySpace '=' = false := by decide

theorem takeWhile_append_all {p : Char → Bool} {a : List Char} (b : List Char)
    (ha : ∀ c ∈ a, p c = true) :
    ∀ _hb : (∀ h : b ≠ [], p (b.head h) = false), (a ++ b).takeWhile p = a ∧
      (a ++ b).dropWhile p = b := by
  intro hb
  induction a with
  | nil =>
    cases b with
    | nil => exact ⟨rfl, rfl⟩
    | cons x xs =>
      have := hb (by simp)
      simp only [List.head_cons] at this
      simp [List.takeWhile_cons, List.dropWhile_cons, this]
  | cons x xs ih =>
    have hx : p x = true := ha x (List.mem_cons_self x xs)
    have ih2 := ih (fun c hc => ha c (List.mem_cons_of_mem x hc))
    simp [List.takeWhile_cons, List.dropWhile_cons, hx, ih2.1, ih2.2]

theorem span_append_all {p : Char → Bool} {a : List Char} (b : List Char)
    (ha : ∀ c ∈ a, p c = true) (hb : ∀ h : b ≠ [], p (b.head h) = false) :
    (a ++ b).span p = (a, b) := by
  have := takeWhile_append_all b ha hb
  rw [List.span_eq_take_drop, this.1, this.2]

theorem firstQuoteSplit {a b x y : List Char}
    (h : a ++ '"' :: x = b ++ '"' :: y)
    (ha : ∀ c ∈ a, c ≠ '"') (hb : ∀ c ∈ b, c ≠ '"') : a = b ∧ x = y := by
  induction a generalizing b with
  | nil =>
    cases b with
    | nil => simp_all
    | cons d bs =>
      simp only [List.nil_append, List.cons_append, List.cons.injEq] at h
      exact absurd h.1.symm (hb d (List.mem_cons_self d bs))
  | cons c as ih =>
    cases b with
    | nil =>
      simp only [List.cons_append, List.nil_append, List.cons.injEq] at h
      exact absurd h.1 (ha c (List.mem_cons_self c as))
    | cons d bs =>
      simp only [List.cons_append, List.cons.injEq] at h
      obtain ⟨rfl, h2⟩ := h
      have := ih h2 (fun e he => ha e (List.mem_cons_of_mem c he))
        (fun e he => hb e (List.mem_cons_of_mem c he))
      exact ⟨by rw [this.1], this.2⟩

theorem isPrefixOf_append_cases {p a b : List Char} (h : p.isPrefixOf (a ++ b) = true) :
    (p.length ≤ a.length ∧ p.isPrefixOf a = true) ∨
      (∃ q, p = a ++ q ∧ q.isPrefixOf b = true) := by
  rw [List.isPrefixOf_iff_prefix] at h
  obtain ⟨t, ht⟩ := h
  by_cases hl : p.length ≤ a.length
  · left
    refine ⟨hl, ?_⟩
    have h1 := List.take_left p t
    rw [ht, List.take_append_of_le_length hl] at h1
    rw [← h1]
    exact List.isPrefixOf_iff_prefix.mpr (List.take_prefix _ _)
  · right
    push_neg at hl
    have ha2 : p.take a.length = a := by
      have h1 := List.take_left a b
      rw [← ht, List.take_append_of_le_length (le_of_lt hl)] at h1
      exact h1
    refine ⟨p.drop a.length, ?_, ?_⟩
    · have h5 := List.take_append_drop a.length p
      rw [ha2] at h5
      exact h5.symm
    · have h6 := congrArg (List.drop a.length) ht
      rw [List.drop_append_eq_append_drop, List.drop_append_eq_append_drop,
        Nat.sub_eq_zero_of_le (le_of_lt hl), List.drop_length] at h6
      simp only [Nat.sub_self, List.drop_zero, List.nil_append] at h6
      exact List.isPrefixOf_iff_prefix.mpr ⟨t, h6⟩

theorem head_of_isPrefixOf {p : List Char} {d : Char} {L : List Char}
    (h : p.isPrefixOf (d :: L) = true) (hne : p ≠ []) :
    ∃ p2, p = d :: p2 := by
  cases p with
  | nil => exact absurd rfl hne
  | cons x xs =>
    simp only [List.isPrefixOf, List.cons.injEq, Bool.and_eq_true, beq_iff_eq] at h
    exact ⟨xs, by rw [h.1]⟩

theorem mem_of_isPrefixOf {p L : List Char} {c : Char}
    (h : p.isPrefixOf L = true) (hc : c ∈ p) : c ∈ L := by
  obtain ⟨t, ht⟩ := List.isPrefixOf_iff_prefix.mp h
  rw [← ht]
  exact List.mem_append_left t hc

theorem suffix_cons_dissect {v : List Char} {c : Char} {t : List Char}
    (h : v <:+ (c :: t)) : v = c :: t ∨ v <:+ t := by
  rcases h with ⟨u, hu⟩
  cases u with
  | nil => left; simpa using hu
  | cons d us =>
    right
    simp only [List.cons_append, List.cons.injEq] at hu
    exact ⟨us, hu.2⟩

theorem suffix_append_dissect {v a b : List Char} (h : v <:+ (a ++ b)) :
    v <:+ b ∨ ∃ s, s <:+ a ∧ s ≠ [] ∧ v = s ++ b := by
  rcases h with ⟨u, hu⟩
  by_cases hl : a.length ≤ u.length
  · left
    refine ⟨u.drop a.length, ?_⟩
    have h2 : (u ++ v).drop a.length = b := by rw [hu, List.drop_left]
    rw [List.drop_append_eq_append_drop, Nat.sub_eq_zero_of_le hl] at h2
    simpa using h2
  · right
    push_neg at hl
    refine ⟨a.drop u.length, ⟨a.take u.length, List.take_append_drop _ _⟩, ?_, ?_⟩
    · intro hnil
      have := congrArg List.length hnil
      simp only [List.length_drop, List.length_nil] at this
      omega
    · have h3 := List.drop_left u v
      rw [hu, List.drop_append_eq_append_drop,
        Nat.sub_eq_zero_of_le (le_of_lt hl)] at h3
      simpa using h3.symm

theorem count_quote_le_of_suffix {v L : List Char} (h : v <:+ L) :
    v.count '"' ≤ L.count '"' :=
  List.Sublist.count_le h.sublist '"'

theorem mQuoted_of_shape {content rest : List Char} (hc : ∀ c ∈ content, c ≠ '"') :
    mQuoted ('"' :: (content ++ '"' :: rest)) = some (content, rest) := by
  have hs : (content ++ '"' :: rest).span (fun x => x ≠ '"') = (content, '"' :: rest) :=
    span_append_all _ (fun c hcc => by simpa using hc c hcc) (fun _ => by simp)
  have hs2 : ((content ++ '"' :: rest).span (fun x => x ≠ '"')).2 = '"' :: rest := by
    rw [hs]
  have hs1 : ((content ++ '"' :: rest).span (fun x => x ≠ '"')).1 = content := by
    rw [hs]
  simp only [mQuoted, hs2, hs1, if_pos rfl, if_true]

theorem mAnchor_of_shape {name w1 w2 X : List Char}
    (hw1 : ∀ c ∈ w1, isPySpace c = true) (hw2 : ∀ c ∈ w2, isPySpace c = true) :
    mAnchor name (name ++ (w1 ++ '=' :: (w2 ++ '"' :: X)))
      = some (name ++ w1 ++ '=' :: w2, '"' :: X) := by
  have hpre : name.isPrefixOf (name ++ (w1 ++ '=' :: (w2 ++ '"' :: X))) = true :=
    List.isPrefixOf_iff_prefix.mpr ⟨_, rfl⟩
  have hdrop : (name ++ (w1 ++ '=' :: (w2 ++ '"' :: X))).drop name.length
      = w1 ++ '=' :: (w2 ++ '"' :: X) := List.drop_left _ _
  have hs1 : (w1 ++ '=' :: (w2 ++ '"' :: X)).span isPySpace
      = (w1, '=' :: (w2 ++ '"' :: X)) :=
    span_append_all _ hw1 (fun _ => by simpa using eq_not_ws)
  have hs1a : ((w1 ++ '=' :: (w2 ++ '"' :: X)).span isPySpace).1 = w1 := by rw [hs1]
  have hs1b : ((w1 ++ '=' :: (w2 ++ '"' :: X)).span isPySpace).2
      = '=' :: (w2 ++ '"' :: X) := by rw [hs1]
  have hs2 : (w2 ++ '"' :: X).span isPySpace = (w2, '"' :: X) :=
    span_append_all _ hw2 (fun _ => by simpa using quote_not_ws)
  have hs2a : ((w2 ++ '"' :: X).span isPySpace).1 = w2 := by rw [hs2]
  have hs2b : ((w2 ++ '"' :: X).span isPySpace).2 = '"' :: X := by rw [hs2]
  simp only [mAnchor, hpre, if_true, hdrop, hs1a, hs1b, hs2a, hs2b, if_pos rfl]

theorem mCont_of_NoCont {w : List Char} (h : NoCont w) : mCont w = ([], w) := by
  unfold mCont
  cases hw : w with
  | nil => rfl
  | cons c t =>
    show mContGo (c :: t).length (c :: t) = ([], c :: t)
    rw [List.length_cons]
    unfold mContGo
    unfold NoCont at h
    rw [hw] at h
    rw [h]

theorem NoCont_mContGo_snd :
    ∀ (fuel : Nat) (cs : List Char), cs.length ≤ fuel → NoCont ((mContGo fuel cs).2) := by
  intro fuel
  induction fuel with
  | zero =>
    intro cs hlen
    interval_cases h : cs.length
    · rw [List.length_eq_zero.mp h]
      unfold NoCont mContGo
      rfl
  | succ fuel ih =>
    intro cs hlen
    unfold mContGo
    rcases hq : mQuoted (cs.span isPySpace).2 with _ | ⟨content, rest⟩
    · simp only [hq]
      exact hq
    · simp only [hq]
      have hsp := span_append isPySpace cs
      have hqd := mQuoted_decomp hq
      have hrlen : rest.length + 2 ≤ cs.length := by
        have := congrArg List.length hsp
        rw [hqd] at this
        simp only [List.length_append, List.length_cons] at this
        omega
      exact ih rest (by omega)

theorem NoCont_mCont_snd (cs : List Char) : NoCont ((mCont cs).2) :=
  NoCont_mContGo_snd cs.length cs le_rfl

theorem mQuoted_inv {cs content rest : List Char}
    (h : mQuoted cs = some (content, rest)) :
    cs = '"' :: (content ++ '"' :: rest) ∧ ∀ c ∈ content, c ≠ '"' := by
  refine ⟨by simpa using mQuoted_decomp h, ?_⟩
  match cs with
  | [] => exact absurd h (by simp [mQuoted])
  | c :: t =>
    simp only [mQuoted] at h
    split at h
    · split at h
      · rename_i c2 r hb
        split at h
        · simp only [Option.some.injEq, Prod.mk.injEq] at h
          intro e he
          rw [← h.1, List.span_eq_take_drop] at he
          simpa using List.mem_takeWhile_imp he
        · exact absurd h (by simp)
      · exact absurd h (by simp)
    · exact absurd h (by simp)

theorem mAnchor_inv {name cs atext rest : List Char}
    (h : mAnchor name cs = some (atext, rest)) :
    ∃ w1 w2, atext = name ++ w1 ++ '=' :: w2 ∧ cs = atext ++ rest ∧
      (∀ c ∈ w1, isPySpace c = true) ∧ (∀ c ∈ w2, isPySpace c = true) := by
  have hcs := (mAnchor_decomp h).1
  unfold mAnchor at h
  split at h
  · rename_i hp
    split at h
    · rename_i c t2 hw1
      split at h
      · rename_i hc
        subst hc
        simp only [Option.some.injEq, Prod.mk.injEq] at h
        refine ⟨((cs.drop name.length).span isPySpace).1, (t2.span isPySpace).1,
          by rw [← h.1], hcs, ?_, ?_⟩
        · intro e he
          rw [List.span_eq_take_drop] at he
          exact List.mem_takeWhile_imp he
        · intro e he
          rw [List.span_eq_take_drop] at he
          exact List.mem_takeWhile_imp he
      · exact absurd h (by simp)
    · exact absurd h (by simp)
  · exact absurd h (by simp)

theorem matchRuleAt_inv {r : SecretRule} {cs repl rest : List Char}
    (h : matchRuleAt r cs = some (repl, rest)) :
    ∃ w1 w2 content cont,
      repl = (r.fieldName ++ w1 ++ '=' :: w2) ++ '"' :: r.placeholder ++ ['"'] ∧
      cs = (r.fieldName ++ w1 ++ '=' :: w2) ++ '"' :: content ++ '"' :: (cont ++ rest) ∧
      (∀ c ∈ w1, isPySpace c = true) ∧ (∀ c ∈ w2, isPySpace c = true) ∧
      (∀ c ∈ content, c ≠ '"') ∧ valueContentOk r.kind content = true ∧ NoCont rest ∧
      cont = (mCont (cont ++ rest)).1 := by
  unfold matchRuleAt at h
  split at h
  · exact absurd h (by simp)
  · rename_i atext rest1 ha
    split at h
    · exact absurd h (by simp)
    · rename_i content rest2 hq
      split at h
      · rename_i hv
        simp only [Option.some.injEq, Prod.mk.injEq] at h
        obtain ⟨hrepl, hrest⟩ := h
        obtain ⟨w1, w2, hat, hcs, hw1, hw2⟩ := mAnchor_inv ha
        obtain ⟨hq1, hq2⟩ := mQuoted_inv hq
        refine ⟨w1, w2, content, (mCont rest2).1, ?_, ?_, hw1, hw2, hq2, hv, ?_, ?_⟩
        · rw [← hrepl, hat]
        · rw [hcs, hq1, hat, ← hrest, mCont_decomp rest2]
          simp [List.append_assoc]
        · rw [← hrest]
          exact NoCont_mCont_snd rest2
        · rw [← hrest, mCont_decomp rest2]
      · exact absurd h (by simp)

theorem matchRuleAt_of_shape {r : SecretRule} {w1 w2 content tail : List Char}
    (hw1 : ∀ c ∈ w1, isPySpace c = true) (hw2 : ∀ c ∈ w2, isPySpace c = true)
    (hcontent : ∀ c ∈ content, c ≠ '"') (hv : valueContentOk r.kind content = true)
    (htail : NoCont tail) :
    matchRuleAt r (r.fieldName ++ (w1 ++ '=' :: (w2 ++ '"' :: (content ++ '"' :: tail))))
      = some ((r.fieldName ++ w1 ++ '=' :: w2) ++ '"' :: r.placeholder ++ ['"'], tail) := by
  unfold matchRuleAt
  rw [mAnchor_of_shape hw1 hw2]
  simp only
  rw [mQuoted_of_shape hcontent]
  simp only
  rw [if_pos hv, mCont_of_NoCont htail]

theorem matchRuleAt_none_of_no_anchor {r : SecretRule} {v : List Char}
    (h : r.fieldName.isPrefixOf v = false) : matchRuleAt r v = none := by
  unfold matchRuleAt mAnchor
  rw [h]
  rfl

theorem matchRuleAt_nil {r : SecretRule} (hwf : r.fieldName ≠ []) :
    matchRuleAt r [] = none := by
  apply matchRuleAt_none_of_no_anchor
  cases hn : r.fieldName with
  | nil => exact absurd hn hwf
  | cons a as => rfl

theorem scan_nil_inv {r : SecretRule} {out : List Char} (hwf : r.fieldName ≠ [])
    (h : Scan r [] out) : out = [] := by
  cases h with
  | nil => rfl
  | repl _ repl rest out hm _ => exact absurd hm (by simp [matchRuleAt_nil hwf])

theorem scan_head {r : SecretRule} {c : Char} {t out : List Char}
    (hwf : r.fieldName ≠ []) (h : Scan r (c :: t) out) : ∃ t2, out = c :: t2 := by
  cases h with
  | skip _ _ out _ _ => exact ⟨out, rfl⟩
  | repl _ repl rest out hm _ =>
    obtain ⟨w1, w2, content, cont, hrepl, hcs, _, _, _, _, _, _⟩ := matchRuleAt_inv hm
    cases hn : r.fieldName with
    | nil => exact absurd hn hwf
    | cons nh nt =>
      rw [hn] at hrepl hcs
      simp only [List.cons_append, List.append_assoc, List.cons.injEq] at hrepl hcs
      refine ⟨nt ++ (w1 ++ '=' :: (w2 ++ '"' :: (r.placeholder ++ ['"']))) ++ out, ?_⟩
      rw [hrepl, hcs.1]
      simp

theorem matchRuleAt_none_of_ws_head {r : SecretRule} {d : Char} {t : List Char}
    (hwf : RuleWF r) (hd : isPySpace d = true) : matchRuleAt r (d :: t) = none := by
  apply matchRuleAt_none_of_no_anchor
  cases hp : r.fieldName.isPrefixOf (d :: t) with
  | false => rfl
  | true =>
    obtain ⟨p2, hp2⟩ := head_of_isPrefixOf hp hwf.1
    have : d ∈ r.fieldName := by rw [hp2]; exact List.mem_cons_self d p2
    have halpha := hwf.2.1 d this
    rw [ws_not_alpha hd] at halpha
    exact absurd halpha (by simp)

theorem scan_ws_run {r : SecretRule} (hwf : RuleWF r) :
    ∀ (w tail out : List Char), (∀ c ∈ w, isPySpace c = true) →
      Scan r (w ++ tail) out → ∃ out2, out = w ++ out2 ∧ Scan r tail out2 := by
  intro w
  induction w with
  | nil => intro tail out _ h; exact ⟨out, rfl, h⟩
  | cons d w2 ih =>
    intro tail out hws h
    have hd : isPySpace d = true := hws d (List.mem_cons_self d w2)
    cases h with
    | skip _ _ out2 _ hsc =>
      obtain ⟨out3, hout3, hsc3⟩ :=
        ih tail out2 (fun c hc => hws c (List.mem_cons_of_mem d hc)) hsc
      exact ⟨out3, by rw [hout3]; rfl, hsc3⟩
    | repl _ repl rest out2 hm _ =>
      exact absurd hm (by simp [matchRuleAt_none_of_ws_head hwf hd])

theorem scan_id_of_nomatch {r : SecretRule} :
    ∀ {z out : List Char}, (∀ v, v <:+ z → matchRuleAt r v = none) →
      Scan r z out → out = z := by
  intro z out hnm h
  induction h with
  | nil => rfl
  | skip c t out _ _ ih =>
    rw [ih (fun v hv => hnm v (hv.trans ⟨[c], rfl⟩))]
  | repl cs repl rest out hm _ _ =>
    exact absurd hm (by simp [hnm cs (List.suffix_refl cs)])

theorem matchRuleAt_none_of_one_quote {r : SecretRule} {z : List Char}
    (hq : z.count '"' ≤ 1) : ∀ v, v <:+ z → matchRuleAt r v = none := by
  intro v hv
  cases hm : matchRuleAt r v with
  | none => rfl
  | some pr =>
    exfalso
    obtain ⟨repl, rest⟩ := pr
    obtain ⟨w1, w2, content, cont, _, hcs, _, _, _, _, _, _⟩ := matchRuleAt_inv hm
    have h2 : (2 : Nat) ≤ v.count '"' := by
      rw [hcs]
      simp only [List.count_append, List.count_cons_self]
      omega
    have h3 := count_quote_le_of_suffix hv
    omega

theorem dropWhile_head_false {p : Char → Bool} :
    ∀ {l : List Char} {c : Char} {t : List Char}, l.dropWhile p = c :: t → p c = false := by
  intro l
  induction l with
  | nil => intro c t h; exact absurd h (by simp)
  | cons a l2 ih =>
    intro c t h
    rw [List.dropWhile_cons] at h
    by_cases hp : p a = true
    · rw [if_pos hp] at h
      exact ih h
    · rw [if_neg hp] at h
      simp only [List.cons.injEq] at h
      rw [← h.1]
      exact Bool.not_eq_true _ ▸ hp

theorem mQuoted_none_head {c : Char} {t : List Char} (hc : c ≠ '"') :
    mQuoted (c :: t) = none := by
  simp only [mQuoted, if_neg hc]

theorem mQuoted_none_no_close {t : List Char}
    (h : mQuoted ('"' :: t) = none) : '"' ∉ t := by
  rcases hd : (t.span (fun x => x ≠ '"')).2 with _ | ⟨c2, r⟩
  · rw [List.span_eq_take_drop] at hd
    have := List.dropWhile_eq_nil_iff.mp hd
    intro hmem
    have h2 := this _ hmem
    simp at h2
  · exfalso
    have hc2 : c2 = '"' := by
      rw [List.span_eq_take_drop] at hd
      have := dropWhile_head_false hd
      simpa using this
    subst hc2
    simp only [mQuoted, if_pos rfl, hd, if_true] at h
    exact absurd h (by simp)

theorem scan_NoCont {r : SecretRule} {z out : List Char} (hwf : RuleWF r)
    (hnc : NoCont z) (h : Scan r z out) : NoCont out := by
  have hz := List.takeWhile_append_dropWhile (p := isPySpace) (l := z)
  have hwall : ∀ c ∈ z.takeWhile isPySpace, isPySpace c = true :=
    fun c hc => List.mem_takeWhile_imp hc
  unfold NoCont at hnc
  rw [List.span_eq_take_drop] at hnc
  rcases htail : z.dropWhile isPySpace with _ | ⟨d, t⟩
  · have hallws : ∀ c ∈ z, isPySpace c = true := by
      intro c hc
      rw [← hz] at hc
      rcases List.mem_append.mp hc with h1 | h1
      · exact hwall c h1
      · rw [htail] at h1; simp at h1
    have hid : out = z := by
      refine scan_id_of_nomatch (fun v hv => ?_) h
      cases v with
      | nil => exact matchRuleAt_nil hwf.1
      | cons e t2 =>
        exact matchRuleAt_none_of_ws_head hwf
          (hallws e (hv.sublist.mem (List.mem_cons_self e t2)))
    rw [hid]
    unfold NoCont
    rw [List.span_eq_take_drop, htail]
    rfl
  · by_cases hd : d = '"'
    · subst hd
      rw [htail] at hnc
      have hnot : '"' ∉ t := mQuoted_none_no_close hnc
      have hcount : z.count '"' ≤ 1 := by
        rw [← hz, htail]
        rw [List.count_append]
        have c1 : (z.takeWhile isPySpace).count '"' = 0 := by
          rw [List.count_eq_zero]
          intro hmem
          have := hwall _ hmem
          rw [quote_not_ws] at this
          exact absurd this (by simp)
        have c2 : ('"' :: t).count '"' ≤ 1 := by
          rw [List.count_cons]
          have : t.count '"' = 0 := by
            rw [List.count_eq_zero]; exact hnot
          simp [this]
        omega
      have hid : out = z := scan_id_of_nomatch (matchRuleAt_none_of_one_quote hcount) h
      rw [hid]
      unfold NoCont
      rw [List.span_eq_take_drop, htail]
      exact hnc
    · rw [← hz] at h
      obtain ⟨out2, hout2, hsc2⟩ := scan_ws_run hwf _ _ _ hwall h
      rw [htail] at hsc2
      obtain ⟨t3, ht3⟩ := scan_head hwf.1 hsc2
      unfold NoCont
      rw [hout2, ht3]
      have hdws : isPySpace d = false := dropWhile_head_false htail
      rw [span_append_all _ hwall (fun _ => by simpa using hdws)]
      exact mQuoted_none_head hd

theorem drop_cons_of_lt {l : List Char} :
    ∀ {k : Nat}, k < l.length → ∃ e t, l.drop k = e :: t ∧ e ∈ l := by
  induction l with
  | nil => intro k h; simp at h
  | cons a l2 ih =>
    intro k h
    cases k with
    | zero => exact ⟨a, l2, rfl, List.mem_cons_self a l2⟩
    | succ k2 =>
      obtain ⟨e, t, het, hmem⟩ := ih (by simpa using h)
      exact ⟨e, t, het, List.mem_cons_of_mem a hmem⟩

theorem no_name_in_anchor {n n' w1 w2 TAIL : List Char} (jmin : Nat)
    (hne : n ≠ []) (halpha : ∀ c ∈ n, c.isAlpha = true)
    (hw1 : ∀ c ∈ w1, isPySpace c = true) (hw2 : ∀ c ∈ w2, isPySpace c = true)
    (hocc : ∀ j, jmin ≤ j → j < n'.length → ¬ n.isPrefixOf (n'.drop j)) :
    ∀ i, jmin ≤ i → i < (n' ++ w1 ++ '=' :: w2).length →
      ¬ n.isPrefixOf (((n' ++ w1 ++ '=' :: w2) ++ '"' :: TAIL).drop i) := by
  intro i hmin hlen hpre
  have hW : ((n' ++ w1 ++ '=' :: w2) ++ '"' :: TAIL)
      = n' ++ (w1 ++ '=' :: (w2 ++ '"' :: TAIL)) := by
    simp [List.append_assoc]
  rw [hW] at hpre
  simp only [List.length_append, List.length_cons] at hlen
  by_cases h1 : i < n'.length
  · rw [List.drop_append_eq_append_drop, Nat.sub_eq_zero_of_le (le_of_lt h1),
      List.drop_zero] at hpre
    rcases isPrefixOf_append_cases hpre with ⟨_, hfit⟩ | ⟨q, hq, hqpre⟩
    · exact hocc i hmin h1 hfit
    · cases q with
      | nil =>
        rw [List.append_nil] at hq
        subst hq
        exact hocc i hmin h1 (List.isPrefixOf_iff_prefix.mpr (List.prefix_refl _))
      | cons e q2 =>
        have hemem : e ∈ n := by
          rw [hq]; exact List.mem_append_right _ (List.mem_cons_self e q2)
        have healpha := halpha e hemem
        cases hw : w1 with
        | nil =>
          rw [hw] at hqpre
          simp only [List.nil_append] at hqpre
          obtain ⟨p2, hp2⟩ := head_of_isPrefixOf hqpre (by simp)
          simp only [List.cons.injEq] at hp2
          rw [hp2.1, eq_not_alpha] at healpha
          exact absurd healpha (by simp)
        | cons f w12 =>
          rw [hw] at hqpre
          simp only [List.cons_append] at hqpre
          obtain ⟨p2, hp2⟩ := head_of_isPrefixOf hqpre (by simp)
          simp only [List.cons.injEq] at hp2
          have hfws : isPySpace f = true := hw1 f (by rw [hw]; exact List.mem_cons_self f w12)
          rw [hp2.1, ws_not_alpha hfws] at healpha
          exact absurd healpha (by simp)
  · push_neg at h1
    rw [List.drop_append_eq_append_drop, List.drop_eq_nil_of_le h1,
      List.nil_append] at hpre
    by_cases h2 : i - n'.length < w1.length
    · rw [List.drop_append_eq_append_drop, Nat.sub_eq_zero_of_le (le_of_lt h2),
        List.drop_zero] at hpre
      obtain ⟨e, t, het, hemem⟩ := drop_cons_of_lt h2
      rw [het] at hpre
      simp only [List.cons_append] at hpre
      obtain ⟨p2, hp2⟩ := head_of_isPrefixOf hpre hne
      have healpha : e.isAlpha = true :=
        halpha e (by rw [hp2]; exact List.mem_cons_self _ _)
      rw [ws_not_alpha (hw1 e hemem)] at healpha
      exact absurd healpha (by simp)
    · push_neg at h2
      rw [List.drop_append_eq_append_drop, List.drop_eq_nil_of_le h2,
        List.nil_append] at hpre
      cases hm : i - n'.length - w1.length with
      | zero =>
        rw [hm, List.drop_zero] at hpre
        obtain ⟨p2, hp2⟩ := head_of_isPrefixOf hpre hne
        have healpha : ('=').isAlpha = true :=
          halpha '=' (by rw [hp2]; exact List.mem_cons_self _ _)
        rw [eq_not_alpha] at healpha
        exact absurd healpha (by simp)
      | succ m2 =>
        rw [hm, List.drop_succ_cons] at hpre
        have hm2 : m2 < w2.length := by omega
        rw [List.drop_append_eq_append_drop, Nat.sub_eq_zero_of_le (le_of_lt hm2),
          List.drop_zero] at hpre
        obtain ⟨e, t, het, hemem⟩ := drop_cons_of_lt hm2
        rw [het] at hpre
        simp only [List.cons_append] at hpre
        obtain ⟨p2, hp2⟩ := head_of_isPrefixOf hpre hne
        have healpha : e.isAlpha = true :=
          halpha e (by rw [hp2]; exact List.mem_cons_self _ _)
        rw [ws_not_alpha (hw2 e hemem)] at healpha
        exact absurd healpha (by simp)

theorem no_name_in_block {rp r : SecretRule} {w1 w2 out2 : List Char}
    (hwfp : RuleWF rp) (hwfr : RuleWF r) (hpair : PairOK rp r)
    (hw1 : ∀ c ∈ w1, isPySpace c = true) (hw2 : ∀ c ∈ w2, isPySpace c = true) :
    ∀ i, 1 ≤ i →
      i < ((r.fieldName ++ w1 ++ '=' :: w2) ++ '"' :: r.placeholder ++ ['"']).length →
      ¬ rp.fieldName.isPrefixOf
        ((((r.fieldName ++ w1 ++ '=' :: w2) ++ '"' :: r.placeholder ++ ['"']) ++ out2).drop i) := by
  intro i h1 hlen hpre
  have hW : (((r.fieldName ++ w1 ++ '=' :: w2) ++ '"' :: r.placeholder ++ ['"']) ++ out2)
      = (r.fieldName ++ w1 ++ '=' :: w2) ++ '"' :: (r.placeholder ++ '"' :: out2) := by
    simp [List.append_assoc]
  rw [hW] at hpre
  simp only [List.length_append, List.length_cons] at hlen
  by_cases hz1 : i < (r.fieldName ++ w1 ++ '=' :: w2).length
  · refine no_name_in_anchor 1 hwfp.1 hwfp.2.1 hw1 hw2
      (fun j hj hjlt => hpair.1 j hjlt (Or.inl hj)) i h1 hz1 hpre
  · push_neg at hz1
    rw [List.drop_append_eq_append_drop, List.drop_eq_nil_of_le hz1,
      List.nil_append] at hpre
    cases hm : i - (r.fieldName ++ w1 ++ '=' :: w2).length with
    | zero =>
      rw [hm, List.drop_zero] at hpre
      obtain ⟨p2, hp2⟩ := head_of_isPrefixOf hpre hwfp.1
      have halpha : ('"').isAlpha = true :=
        hwfp.2.1 '"' (by rw [hp2]; exact List.mem_cons_self _ _)
      rw [quote_not_alpha] at halpha
      exact absurd halpha (by simp)
    | succ k =>
      rw [hm, List.drop_succ_cons] at hpre
      simp only [List.length_nil] at hlen
      simp only [List.length_append, List.length_cons, List.length_nil] at hm
      by_cases hk : k < r.placeholder.length
      · rw [List.drop_append_eq_append_drop, Nat.sub_eq_zero_of_le (le_of_lt hk),
          List.drop_zero] at hpre
        rcases isPrefixOf_append_cases hpre with ⟨_, hfit⟩ | ⟨q, hq, hqpre⟩
        · exact hpair.2 k hk hfit
        · cases q with
          | nil =>
            rw [List.append_nil] at hq
            refine hpair.2 k hk ?_
            rw [hq]
            exact List.isPrefixOf_iff_prefix.mpr (List.prefix_refl _)
          | cons e q2 =>
            have hemem : e ∈ rp.fieldName := by
              rw [hq]; exact List.mem_append_right _ (List.mem_cons_self e q2)
            obtain ⟨p2, hp2⟩ := head_of_isPrefixOf hqpre (by simp)
            simp only [List.cons.injEq] at hp2
            have halpha := hwfp.2.1 e hemem
            rw [hp2.1, quote_not_alpha] at halpha
            exact absurd halpha (by simp)
      · push_neg at hk
        have hk2 : k = r.placeholder.length := by omega
        rw [List.drop_append_eq_append_drop, List.drop_eq_nil_of_le hk,
          List.nil_append, hk2, Nat.sub_self, List.drop_zero] at hpre
        obtain ⟨p2, hp2⟩ := head_of_isPrefixOf hpre hwfp.1
        have halpha : ('"').isAlpha = true :=
          hwfp.2.1 '"' (by rw [hp2]; exact List.mem_cons_self _ _)
        rw [quote_not_alpha] at halpha
        exact absurd halpha (by simp)

instance instDecRuleWF (r : SecretRule) : Decidable (RuleWF r) := by
  unfold RuleWF; infer_instance

instance instDecPairOK (rp r : SecretRule) : Decidable (PairOK rp r) := by
  unfold PairOK; infer_instance

theorem rules_wf : ∀ r ∈ get_secret_patterns, RuleWF r := by decide

theorem rules_pairOK : ∀ rp ∈ get_secret_patterns, ∀ r ∈ get_secret_patterns, PairOK rp r := by
  decide

theorem alpha_ne_quote {c : Char} (h : c.isAlpha = true) : c ≠ '"' := by
  intro hc
  subst hc
  rw [quote_not_alpha] at h
  exact absurd h (by simp)

theorem ws_ne_quote {c : Char} (h : isPySpace c = true) : c ≠ '"' := by
  intro hc
  subst hc
  rw [quote_not_ws] at h
  exact absurd h (by simp)

theorem anchor_quote_free {n w1 w2 : List Char} (hn : ∀ c ∈ n, c.isAlpha = true)
    (hw1 : ∀ c ∈ w1, isPySpace c = true) (hw2 : ∀ c ∈ w2, isPySpace c = true) :
    ∀ c ∈ n ++ w1 ++ '=' :: w2, c ≠ '"' := by
  intro c hc
  rcases List.mem_append.mp hc with h1 | h1
  · rcases List.mem_append.mp h1 with h2 | h2
    · exact alpha_ne_quote (hn c h2)
    · exact ws_ne_quote (hw1 c h2)
  · rcases List.mem_cons.mp h1 with h2 | h2
    · subst h2; decide
    · exact ws_ne_quote (hw2 c h2)

theorem scan_agree {r : SecretRule} (hwf : RuleWF r) :
    ∀ {z out : List Char}, Scan r z out → ∀ X A C,
      ((X = A ++ '"' :: C ++ ['"'] ∧ (∀ c ∈ A, c ≠ '"') ∧ (∀ c ∈ C, c ≠ '"') ∧
        (∀ j, j < A.length → ¬ r.fieldName.isPrefixOf (X.drop j))) ∨
       (X = C ++ ['"'] ∧ (∀ c ∈ C, c ≠ '"'))) →
      X.isPrefixOf out = true →
      X.isPrefixOf z = true ∧
        (Scan r (z.drop X.length) (out.drop X.length) ∨
          ∃ w3, out.drop X.length = r.placeholder ++ '"' :: w3) := by
  intro z out hsc
  induction hsc with
  | nil =>
    intro X A C hsh hpre
    have hXnil : X = [] := by
      rcases List.isPrefixOf_iff_prefix.mp hpre with ⟨s, hs⟩
      exact (List.append_eq_nil.mp hs).1
    subst hXnil
    exact ⟨rfl, Or.inl Scan.nil⟩
  | skip c t out2 hm hsc2 ih =>
    intro X A C hsh hpre
    cases X with
    | nil => exact ⟨rfl, Or.inl (Scan.skip c t out2 hm hsc2)⟩
    | cons x X2 =>
      simp only [List.isPrefixOf, Bool.and_eq_true, beq_iff_eq] at hpre
      obtain ⟨hxc, hpre2⟩ := hpre
      rcases hsh with ⟨hX, hA, hC, hj⟩ | ⟨hX, hC⟩
      · cases A with
        | nil =>
          simp only [List.nil_append, List.cons_append, List.cons.injEq] at hX
          obtain ⟨hx1, hX2⟩ := hX
          obtain ⟨hih1, hih2⟩ := ih X2 [] C (Or.inr ⟨hX2, hC⟩) hpre2
          refine ⟨?_, ?_⟩
          · simp only [List.isPrefixOf, Bool.and_eq_true, beq_iff_eq]
            exact ⟨hxc, hih1⟩
          · simp only [List.length_cons, List.drop_succ_cons]
            exact hih2
        | cons a A2 =>
          simp only [List.cons_append, List.cons.injEq] at hX
          obtain ⟨hxa, hX2⟩ := hX
          have hj2 : ∀ j, j < A2.length → ¬ r.fieldName.isPrefixOf (X2.drop j) := by
            intro j hjl
            have := hj (j + 1) (by simp only [List.length_cons]; omega)
            simpa using this
          obtain ⟨hih1, hih2⟩ := ih X2 A2 C
            (Or.inl ⟨hX2, fun e he => hA e (List.mem_cons_of_mem a he), hC, hj2⟩) hpre2
          refine ⟨?_, ?_⟩
          · simp only [List.isPrefixOf, Bool.and_eq_true, beq_iff_eq]
            exact ⟨hxc, hih1⟩
          · simp only [List.length_cons, List.drop_succ_cons]
            exact hih2
      · cases C with
        | nil =>
          simp only [List.nil_append, List.cons.injEq] at hX
          obtain ⟨hx1, hX2⟩ := hX
          subst hX2
          refine ⟨?_, Or.inl ?_⟩
          · simp only [List.isPrefixOf, Bool.and_eq_true, beq_iff_eq]
            exact ⟨hxc, trivial⟩
          · simp only [List.length_cons, List.length_nil, List.drop_succ_cons,
              List.drop_zero]
            exact hsc2
        | cons d C2 =>
          simp only [List.cons_append, List.cons.injEq] at hX
          obtain ⟨hxd, hX2⟩ := hX
          obtain ⟨hih1, hih2⟩ := ih X2 A C2
            (Or.inr ⟨hX2, fun e he => hC e (List.mem_cons_of_mem d he)⟩) hpre2
          refine ⟨?_, ?_⟩
          · simp only [List.isPrefixOf, Bool.and_eq_true, beq_iff_eq]
            exact ⟨hxc, hih1⟩
          · simp only [List.length_cons, List.drop_succ_cons]
            exact hih2
  | repl cs repl2 rest out2 hm hsc2 ih =>
    intro X A C hsh hpre
    obtain ⟨w1, w2, content, cont, hrepl, hcs, hw1, hw2, hcontent, hval, hnc, hcfix⟩ :=
      matchRuleAt_inv hm
    have hfn : r.fieldName <+: repl2 ++ out2 := by
      rw [hrepl]
      exact (((((List.prefix_append _ _).trans (List.prefix_append _ _)).trans
        (List.prefix_append _ _)).trans (List.prefix_append _ _)).trans
        (List.prefix_append _ _))
    rcases hsh with ⟨hX, hA, hC, hj⟩ | ⟨hX, hC⟩
    · cases A with
      | nil =>
        exfalso
        simp only [List.nil_append] at hX
        cases hn : r.fieldName with
        | nil => exact absurd hn hwf.1
        | cons nh nt =>
          rw [hn] at hrepl
          simp only [List.cons_append, List.append_assoc] at hrepl
          rw [hX, hrepl] at hpre
          simp only [List.cons_append, List.isPrefixOf, Bool.and_eq_true,
            beq_iff_eq] at hpre
          have halpha : nh.isAlpha = true :=
            hwf.2.1 nh (by rw [hn]; exact List.mem_cons_self nh nt)
          rw [← hpre.1, quote_not_alpha] at halpha
          exact absurd halpha (by simp)
      | cons a A2 =>
        exfalso
        have hXp : X <+: repl2 ++ out2 := List.isPrefixOf_iff_prefix.mp hpre
        by_cases hxl : r.fieldName.length ≤ X.length
        · have hfnX : r.fieldName <+: X :=
            List.prefix_of_prefix_length_le hfn hXp hxl
          have := hj 0 (by simp only [List.length_cons]; omega)
          rw [List.drop_zero] at this
          exact this (List.isPrefixOf_iff_prefix.mpr hfnX)
        · push_neg at hxl
          have hXfn : X <+: r.fieldName :=
            List.prefix_of_prefix_length_le hXp hfn (le_of_lt hxl)
          have hqX : '"' ∈ X := by
            rw [hX]
            exact List.mem_append_left _
              (List.mem_append_right _ (List.mem_cons_self _ _))
          have hqfn : '"' ∈ r.fieldName := hXfn.sublist.mem hqX
          have := hwf.2.1 '"' hqfn
          rw [quote_not_alpha] at this
          exact absurd this (by simp)
    · obtain ⟨s, hs⟩ := List.isPrefixOf_iff_prefix.mp hpre
      have hlhs : X ++ s = C ++ '"' :: s := by
        rw [hX]
        simp [List.append_assoc]
      have hrhs : repl2 ++ out2
          = (r.fieldName ++ w1 ++ '=' :: w2) ++ '"' :: (r.placeholder ++ '"' :: out2) := by
        rw [hrepl]
        simp [List.append_assoc]
      have hq := firstQuoteSplit (by rw [← hlhs, hs, hrhs]) hC
        (anchor_quote_free hwf.2.1 hw1 hw2)
      obtain ⟨hCa, hsv⟩ := hq
      refine ⟨?_, Or.inr ⟨out2, ?_⟩⟩
      · apply List.isPrefixOf_iff_prefix.mpr
        refine ⟨content ++ '"' :: (cont ++ rest), ?_⟩
        rw [hX, hCa, hcs]
        simp [List.append_assoc]
      · have hdrop : (repl2 ++ out2).drop X.length = s := by
          rw [← hs]
          exact List.drop_left X s
        rw [hdrop, hsv]

theorem matchRuleAt_some_of_shape {r : SecretRule} {w1 w2 content tail : List Char}
    (hw1 : ∀ c ∈ w1, isPySpace c = true) (hw2 : ∀ c ∈ w2, isPySpace c = true)
    (hcontent : ∀ c ∈ content, c ≠ '"') (hv : valueContentOk r.kind content = true) :
    matchRuleAt r (r.fieldName ++ (w1 ++ '=' :: (w2 ++ '"' :: (content ++ '"' :: tail))))
      = some ((r.fieldName ++ w1 ++ '=' :: w2) ++ '"' :: r.placeholder ++ ['"'],
          (mCont tail).2) := by
  unfold matchRuleAt
  rw [mAnchor_of_shape hw1 hw2]
  simp only
  rw [mQuoted_of_shape hcontent]
  simp only
  rw [if_pos hv]

theorem NoCont_of_head {z : List Char} {d : Char} {t : List Char} (hz : z = d :: t)
    (hd1 : isPySpace d = false) (hd2 : d ≠ '"') : NoCont z := by
  unfold NoCont
  rw [hz, List.span_eq_take_drop, List.dropWhile_cons, hd1]
  simp only [Bool.false_eq_true, if_false]
  exact mQuoted_none_head hd2

theorem replaced_scan {rp r : SecretRule} (hwfp : RuleWF rp) (hwfr : RuleWF r)
    (hpair : PairOK rp r) (hpair2 : PairOK r rp) :
    ∀ {z out : List Char}, Scan r z out → (rp = r ∨ Replaced rp z) → Replaced rp out := by
  intro z out hsc
  induction hsc with
  | nil =>
    intro _ v hv repl rest hmv
    rw [List.suffix_nil.mp hv, matchRuleAt_nil hwfp.1] at hmv
    exact absurd hmv (by simp)
  | skip c t out2 hm hsc2 ih =>
    intro hpre2
    have ihout : Replaced rp out2 := by
      apply ih
      rcases hpre2 with h | h
      · exact Or.inl h
      · exact Or.inr (h.suffix_closed ⟨[c], rfl⟩)
    intro v hv repl rest hmv
    rcases suffix_cons_dissect hv with hveq | hv2
    swap
    · exact ihout v hv2 repl rest hmv
    subst hveq
    obtain ⟨w1, w2, content, cont, hrepl, hcs, hw1, hw2, hcontent, hval, hncrest, hcfix⟩ :=
      matchRuleAt_inv hmv
    rcases hn : rp.fieldName with _ | ⟨nh, nt⟩
    · exact absurd hn hwfp.1
    have hcs2 : c :: out2
        = nh :: (((nt ++ w1 ++ '=' :: w2) ++ '"' :: content ++ ['"']) ++ (cont ++ rest)) := by
      rw [hcs, hn]
      simp [List.append_assoc]
    have hcs3 := hcs2
    simp only [List.cons.injEq] at hcs3
    obtain ⟨hcnh, hout2⟩ := hcs3
    have hntalpha : ∀ e ∈ nt, e.isAlpha = true := by
      intro e he
      exact hwfp.2.1 e (by rw [hn]; exact List.mem_cons_of_mem _ he)
    have hj2 : ∀ j, j < (nt ++ w1 ++ '=' :: w2).length →
        ¬ r.fieldName.isPrefixOf (((nt ++ w1 ++ '=' :: w2) ++ '"' :: content ++ ['"']).drop j) := by
      intro j hjl hp
      have hWc : (rp.fieldName ++ w1 ++ '=' :: w2) ++ '"' :: (content ++ ['"'])
          = nh :: ((nt ++ w1 ++ '=' :: w2) ++ '"' :: content ++ ['"']) := by
        rw [hn]
        simp [List.append_assoc]
      have hlen2 : j + 1 < (rp.fieldName ++ w1 ++ '=' :: w2).length := by
        rw [hn]
        simp only [List.length_append, List.length_cons] at hjl ⊢
        omega
      refine @no_name_in_anchor r.fieldName rp.fieldName w1 w2 (content ++ ['"']) 1
        hwfr.1 hwfr.2.1 hw1 hw2
        (fun i hi1 hilt => hpair2.1 i hilt (Or.inl hi1)) (j + 1) (by omega) hlen2 ?_
      rw [hWc, List.drop_succ_cons]
      exact hp
    have hpreX : ((nt ++ w1 ++ '=' :: w2) ++ '"' :: content ++ ['"']).isPrefixOf out2 = true :=
      List.isPrefixOf_iff_prefix.mpr ⟨cont ++ rest, hout2.symm⟩
    obtain ⟨hzpre, htail⟩ := scan_agree hwfr hsc2
      ((nt ++ w1 ++ '=' :: w2) ++ '"' :: content ++ ['"']) (nt ++ w1 ++ '=' :: w2) content
      (Or.inl ⟨rfl, anchor_quote_free hntalpha hw1 hw2, hcontent, hj2⟩) hpreX
    obtain ⟨zt, hzt⟩ := List.isPrefixOf_iff_prefix.mp hzpre
    have hzshape : c :: t
        = rp.fieldName ++ (w1 ++ '=' :: (w2 ++ '"' :: (content ++ '"' :: zt))) := by
      rw [hcnh, ← hzt, hn]
      simp [List.append_assoc]
    have hzmatch : matchRuleAt rp (c :: t)
        = some ((rp.fieldName ++ w1 ++ '=' :: w2) ++ '"' :: rp.placeholder ++ ['"'],
            (mCont zt).2) := by
      rw [hzshape]
      exact matchRuleAt_some_of_shape hw1 hw2 hcontent hval
    rcases hpre2 with hrr | hrep
    · rw [← hrr] at hm
      rw [hm] at hzmatch
      exact absurd hzmatch (by simp)
    · have hself := hrep (c :: t) (List.suffix_refl _) _ _ hzmatch
      have hcmp2 : content ++ '"' :: zt = rp.placeholder ++ '"' :: (mCont zt).2 := by
        have h1 : (rp.fieldName ++ w1 ++ '=' :: w2) ++ '"' :: (content ++ '"' :: zt)
            = (rp.fieldName ++ w1 ++ '=' :: w2)
                ++ '"' :: (rp.placeholder ++ '"' :: (mCont zt).2) := by
          calc (rp.fieldName ++ w1 ++ '=' :: w2) ++ '"' :: (content ++ '"' :: zt)
              = rp.fieldName ++ (w1 ++ '=' :: (w2 ++ '"' :: (content ++ '"' :: zt))) := by
                simp [List.append_assoc]
            _ = ((rp.fieldName ++ w1 ++ '=' :: w2) ++ '"' :: rp.placeholder ++ ['"'])
                  ++ (mCont zt).2 := by rw [← hzshape, hself]
            _ = (rp.fieldName ++ w1 ++ '=' :: w2)
                  ++ '"' :: (rp.placeholder ++ '"' :: (mCont zt).2) := by
                simp [List.append_assoc]
        have h2 := List.append_cancel_left h1
        simpa using h2
      obtain ⟨hcPH, hztfix⟩ := firstQuoteSplit hcmp2 hcontent
        (fun e he => (hwfp.2.2.2 e he).1)
      have hnczt : NoCont zt := by
        have hx := NoCont_mCont_snd zt
        rw [← hztfix] at hx
        exact hx
      have hdt : t.drop ((nt ++ w1 ++ '=' :: w2) ++ '"' :: content ++ ['"']).length = zt := by
        rw [← hzt]
        exact List.drop_left _ _
      have hdo : out2.drop ((nt ++ w1 ++ '=' :: w2) ++ '"' :: content ++ ['"']).length
          = cont ++ rest := by
        rw [hout2]
        exact List.drop_left _ _
      have hnccr : NoCont (cont ++ rest) := by
        rcases htail with hsc3 | ⟨w3, hw3⟩
        · rw [hdt, hdo] at hsc3
          exact scan_NoCont hwfr hnczt hsc3
        · rw [hdo] at hw3
          rcases hph : r.placeholder with _ | ⟨p, pt⟩
          · exact absurd hph hwfr.2.2.1
          · refine @NoCont_of_head (cont ++ rest) p (pt ++ '"' :: w3) ?_ ?_ ?_
            · rw [hw3, hph]
              simp
            · exact (hwfr.2.2.2 p (by rw [hph]; exact List.mem_cons_self _ _)).2
            · exact (hwfr.2.2.2 p (by rw [hph]; exact List.mem_cons_self _ _)).1
      have hcnil : cont = [] := by
        have hx := hcfix
        rw [mCont_of_NoCont hnccr] at hx
        exact hx
      rw [hcs, hrepl, hcPH, hcnil]
      simp [List.append_assoc]
  | repl cs repl2 rest out2 hm hsc2 ih =>
    intro hpre2
    obtain ⟨w1, w2, content, cont, hrepl2, hcs, hw1, hw2, hcontent, hval, hncrest, hcfix⟩ :=
      matchRuleAt_inv hm
    have ihout : Replaced rp out2 := by
      apply ih
      rcases hpre2 with h | h
      · exact Or.inl h
      · refine Or.inr (h.suffix_closed ?_)
        refine ⟨(r.fieldName ++ w1 ++ '=' :: w2) ++ '"' :: content ++ '"' :: cont, ?_⟩
        rw [hcs]
        simp [List.append_assoc]
    intro v hv repl rest2 hmv
    rcases suffix_append_dissect hv with hv2 | ⟨s, hssuf, hsne, hveq⟩
    · exact ihout v hv2 repl rest2 hmv
    · by_cases hfull : s = repl2
      · by_cases hrr : rp = r
        · subst hrr
          have hshape : repl2 ++ out2
              = rp.fieldName ++ (w1 ++ '=' :: (w2 ++ '"' :: (rp.placeholder ++ '"' :: out2))) := by
            rw [hrepl2]
            simp [List.append_assoc]
          cases hvph : valueContentOk rp.kind rp.placeholder with
          | false =>
            have hnone : matchRuleAt rp (repl2 ++ out2) = none := by
              rw [hshape]
              unfold matchRuleAt
              rw [mAnchor_of_shape hw1 hw2]
              simp only
              rw [mQuoted_of_shape (fun e he => (hwfp.2.2.2 e he).1)]
              simp only
              rw [hvph]
              simp only [Bool.false_eq_true, if_false]
            rw [hveq, hfull, hnone] at hmv
            exact absurd hmv (by simp)
          | true =>
            have hnco : NoCont out2 := scan_NoCont hwfp hncrest hsc2
            have hsome : matchRuleAt rp (repl2 ++ out2)
                = some ((rp.fieldName ++ w1 ++ '=' :: w2) ++ '"' :: rp.placeholder ++ ['"'],
                    out2) := by
              rw [hshape,
                matchRuleAt_some_of_shape hw1 hw2 (fun e he => (hwfp.2.2.2 e he).1) hvph,
                mCont_of_NoCont hnco]
            rw [hveq, hfull, hsome] at hmv
            simp only [Option.some.injEq, Prod.mk.injEq] at hmv
            obtain ⟨hr1, hr2⟩ := hmv
            rw [hveq, hfull, ← hr1, ← hr2, hrepl2]
        · have hnopre : ¬ rp.fieldName.isPrefixOf
              (((r.fieldName ++ w1 ++ '=' :: w2)
                ++ '"' :: (r.placeholder ++ '"' :: out2)).drop 0) := by
            refine @no_name_in_anchor rp.fieldName r.fieldName w1 w2
              (r.placeholder ++ '"' :: out2) 0 hwfp.1 hwfp.2.1 hw1 hw2
              (fun i _ hilt => hpair.1 i hilt (Or.inr hrr)) 0 (Nat.zero_le _) ?_
            have hfl : 0 < r.fieldName.length := List.length_pos.mpr hwfr.1
            simp only [List.length_append, List.length_cons]
            omega
          rw [List.drop_zero] at hnopre
          have hfalse : rp.fieldName.isPrefixOf (repl2 ++ out2) = false := by
            have heq : repl2 ++ out2
                = (r.fieldName ++ w1 ++ '=' :: w2) ++ '"' :: (r.placeholder ++ '"' :: out2) := by
              rw [hrepl2]
              simp [List.append_assoc]
            rw [heq]
            cases hb : rp.fieldName.isPrefixOf
                ((r.fieldName ++ w1 ++ '=' :: w2) ++ '"' :: (r.placeholder ++ '"' :: out2)) with
            | false => rfl
            | true => exact absurd hb hnopre
          rw [hveq, hfull, matchRuleAt_none_of_no_anchor hfalse] at hmv
          exact absurd hmv (by simp)
      · obtain ⟨u, hu⟩ := hssuf
        have hune : u ≠ [] := by
          intro h0
          rw [h0, List.nil_append] at hu
          exact hfull hu
        have hulen : 1 ≤ u.length := by
          cases hu0 : u with
          | nil => exact absurd hu0 hune
          | cons a as => simp
        have hilt : u.length < repl2.length := by
          have hl := congrArg List.length hu
          simp only [List.length_append] at hl
          have hs1 : 1 ≤ s.length := by
            cases hs0 : s with
            | nil => exact absurd hs0 hsne
            | cons a as => simp
          omega
        have hdrop : (repl2 ++ out2).drop u.length = s ++ out2 := by
          have hx : repl2 ++ out2 = u ++ (s ++ out2) := by
            rw [← hu]
            simp [List.append_assoc]
          rw [hx]
          exact List.drop_left _ _
        have hilt2 : u.length
            < ((r.fieldName ++ w1 ++ '=' :: w2) ++ '"' :: r.placeholder ++ ['"']).length := by
          rw [← hrepl2]
          exact hilt
        have hnopre := @no_name_in_block rp r w1 w2 out2 hwfp hwfr hpair hw1 hw2
          u.length hulen hilt2
        have hdrop2 : ((((r.fieldName ++ w1 ++ '=' :: w2) ++ '"' :: r.placeholder ++ ['"']))
            ++ out2).drop u.length = s ++ out2 := by
          rw [← hrepl2]
          exact hdrop
        rw [hdrop2] at hnopre
        have hfalse : rp.fieldName.isPrefixOf (s ++ out2) = false := by
          cases hb : rp.fieldName.isPrefixOf (s ++ out2) with
          | false => rfl
          | true => exact absurd hb hnopre
        rw [hveq, matchRuleAt_none_of_no_anchor hfalse] at hmv
        exact absurd hmv (by simp)

theorem fold_preserves {rp : SecretRule} (hwfp : RuleWF rp) :
    ∀ (L : List SecretRule) (y : List Char),
      (∀ r ∈ L, RuleWF r) → (∀ r ∈ L, PairOK rp r ∧ PairOK r rp) →
      Replaced rp y → Replaced rp (L.foldl (fun acc r => subRule r acc) y) := by
  intro L
  induction L with
  | nil => intro y _ _ h; exact h
  | cons r L2 ih =>
    intro y hwf hpok h
    show Replaced rp (L2.foldl (fun acc r => subRule r acc) (subRule r y))
    refine ih (subRule r y) (fun e he => hwf e (List.mem_cons_of_mem r he))
      (fun e he => hpok e (List.mem_cons_of_mem r he)) ?_
    exact replaced_scan hwfp (hwf r (List.mem_cons_self r L2))
      (hpok r (List.mem_cons_self r L2)).1 (hpok r (List.mem_cons_self r L2)).2
      (scan_subRule r y) (Or.inr h)

theorem fold_establishes :
    ∀ (L : List SecretRule) (y : List Char),
      (∀ r ∈ L, RuleWF r) → (∀ rp ∈ L, ∀ r ∈ L, PairOK rp r) →
      ∀ rp ∈ L, Replaced rp (L.foldl (fun acc r => subRule r acc) y) := by
  intro L
  induction L with
  | nil => intro y _ _ rp hrp; exact absurd hrp (by simp)
  | cons r L2 ih =>
    intro y hwf hpok rp hrp
    show Replaced rp (L2.foldl (fun acc r => subRule r acc) (subRule r y))
    rcases List.mem_cons.mp hrp with hrpr | hrp2
    · subst hrpr
      refine fold_preserves (hwf rp (List.mem_cons_self rp L2)) L2 (subRule rp y)
        (fun e he => hwf e (List.mem_cons_of_mem rp he))
        (fun e he => ⟨hpok rp (List.mem_cons_self rp L2) e (List.mem_cons_of_mem rp he),
          hpok e (List.mem_cons_of_mem rp he) rp (List.mem_cons_self rp L2)⟩) ?_
      exact replaced_scan (hwf rp (List.mem_cons_self rp L2)) (hwf rp (List.mem_cons_self rp L2))
        (hpok rp (List.mem_cons_self rp L2) rp (List.mem_cons_self rp L2))
        (hpok rp (List.mem_cons_self rp L2) rp (List.mem_cons_self rp L2))
        (scan_subRule rp y) (Or.inl rfl)
    · exact ih (subRule r y) (fun e he => hwf e (List.mem_cons_of_mem r he))
        (fun e he e2 he2 => hpok e (List.mem_cons_of_mem r he) e2 (List.mem_cons_of_mem r he2))
        rp hrp2

theorem fold_fix :
    ∀ (L : List SecretRule) (y : List Char),
      (∀ r ∈ L, Replaced r y) → L.foldl (fun acc r => subRule r acc) y = y := by
  intro L
  induction L with
  | nil => intro y _; rfl
  | cons r L2 ih =>
    intro y h
    show L2.foldl (fun acc r => subRule r acc) (subRule r y) = y
    rw [subRule_eq_self (h r (List.mem_cons_self r L2))]
    exact ih y (fun e he => h e (List.mem_cons_of_mem r he))

theorem applySecretPatterns_idem (x : List Char) :
    applySecretPatterns (applySecretPatterns x) = applySecretPatterns x := by
  unfold applySecretPatterns
  exact fold_fix get_secret_patterns _
    (fold_establishes get_secret_patterns x rules_wf rules_pairOK)

/-- C2: scrubbing is idempotent.  For every input `x` that contains at
least one recognized secret field name and on which
`clean_secrets_from_content` succeeds with output `y`, running
`clean_secrets_from_content` on `y` succeeds and returns `y` itself:
scrub(scrub(x)) = scrub(x). -/
theorem scrub_idempotent (x y : List Char)
    (hfield : ∃ r ∈ get_secret_patterns, containsSub x r.fieldName = true)
    (hok : clean_secrets_from_content x = Except.ok y) :
    clean_secrets_from_content y = Except.ok y := by
  have hmainx : clean_secrets_from_content x =
      (if potentialSecrets (applySecretPatterns x) = [] then .ok (applySecretPatterns x)
        else .error 1) := by
    unfold clean_secrets_from_content validate_no_secrets_remain
    by_cases h : potentialSecrets (applySecretPatterns x) = [] <;> simp [h]
  have hmainy : clean_secrets_from_content y =
      (if potentialSecrets (applySecretPatterns y) = [] then .ok (applySecretPatterns y)
        else .error 1) := by
    unfold clean_secrets_from_content validate_no_secrets_remain
    by_cases h : potentialSecrets (applySecretPatterns y) = [] <;> simp [h]
  rw [hmainx] at hok
  by_cases h : potentialSecrets (applySecretPatterns x) = []
  · rw [if_pos h] at hok
    simp only [Except.ok.injEq] at hok
    have hy : applySecretPatterns y = y := by
      rw [← hok]
      exact applySecretPatterns_idem x
    have hpy : potentialSecrets y = [] := by
      rw [← hok]
      exact h
    rw [hmainy, hy, if_pos hpy]
  · rw [if_neg h] at hok
    exact absurd hok (by simp)

set_option maxHeartbeats 16000000 in
theorem scrub_idempotent_witness :
    (∃ r ∈ get_secret_patterns, containsSub passwordDoc r.fieldName = true) ∧
    clean_secrets_from_content passwordDoc = Except.ok passwordDocOut ∧
    clean_secrets_from_content passwordDocOut = Except.ok passwordDocOut := by
  have h1 : clean_secrets_from_content passwordDoc = Except.ok passwordDocOut := by decide
  have h2 : ∃ r ∈ get_secret_patterns, containsSub passwordDoc r.fieldName = true := by decide
  exact ⟨h2, h1, scrub_idempotent passwordDoc passwordDocOut h2 h1⟩

end Scribe
